import Mathlib

/-!
Verification of the stack-depth-analyzer core (ARMv6-M static stack analysis).

This file gives a shallow embedding, in Lean 4, of the parts of the analyzer
that the verified properties speak about:

* the whole-program cumulative-stack solver and the program-level function
  assembly (`src/app/elf_arm_thumbv6m_cortex_m0/program/parse.py`),
* the entrypoint aggregator (same file),
* the instruction-stream decoder dispatch loop
  (`src/app/elf_arm_thumbv6m_cortex_m0/instructions_decoder/parse.py`),
* the data-region cursor reads
  (`src/app/elf_arm_thumbv6m_cortex_m0/functions/s03_instructions/cursor.py`),
* the jump-table and BLX program-counter-effect resolvers
  (`src/app/elf_arm_thumbv6m_cortex_m0/functions/s04_instructions_effect/_program_counter_effect.py`),
* the per-function stack analyzer
  (`src/app/elf_arm_thumbv6m_cortex_m0/functions/s06_functions_effect/parse.py`).

Machine integers are embedded as `Nat`/`Int` (Python integers are unbounded, so
no wrap-around modelling is needed).  Python `dict`s are embedded as
association lists with first-match lookup and insertion-order iteration, Python
`set`s of numbers as `Finset Nat` or as `Nodup` lists, and raised exceptions /
failed `assert` statements as `Except` errors.  Python `while` loops are
embedded with explicit fuel; fuel exhaustion is a distinguished error which the
theorems prove unreachable at the fuel values used by the embedding.
-/

namespace StackDepthAnalyzer

/-- Python `max(iterable, default=0)` over a list of naturals. -/
def maxD (l : List Nat) : Nat := l.foldr max 0

/-- `int.from_bytes(bs, "little", signed=False)`. -/
def int_from_bytes_le (bs : List Nat) : Nat := bs.foldr (fun b acc => b + 256 * acc) 0

/-! ## Cumulative-stack solver

Embedding of `parse_stack_grow_cumulative_by_function_address`,
`parse_functions` (program/parse.py) and the `Function` records they consume
and produce (functions/model.py, program/model.py).  The `names` field is
carried nowhere below: no verified property mentions it. -/

/-- A function as produced by stage s06 and consumed by `program/parse.py`
(`functions/model.py:Function`): address, own stack growth (asserted
non-negative there, hence `Nat`), and the set of call-target addresses
(a Python `set`, embedded as a `Nodup`-intended list). -/
structure PFunc where
  address : Nat
  stack_grow : Nat
  call_addresses : List Nat
deriving DecidableEq, Repr

/-- A program-level function (`program/model.py:Function`), adding the
cumulative stack growth. -/
structure ProgramFunction where
  address : Nat
  stack_grow : Nat
  stack_grow_cumulative : Nat
  call_addresses : List Nat
deriving DecidableEq, Repr

/-- Python `dict` assignment `d[k] = v` on an association list: overwrite the
entry if the key is present, otherwise append (insertion order preserved). -/
def dictInsert (l : List (Nat × Nat)) (k v : Nat) : List (Nat × Nat) :=
  if (l.lookup k).isSome then l.map (fun p => if p.1 = k then (k, v) else p)
  else l ++ [(k, v)]

/-- The body of the solver pass for one function: if all its call targets are
already resolved, resolve it (own stack growth plus the largest callee
cumulative, `0` when it has no call targets) and flag the change. -/
def solverStep (acc : List (Nat × Nat) × Bool) (f : PFunc) : List (Nat × Nat) × Bool :=
  if f.call_addresses.all (fun c => ((acc.1.lookup c).isSome : Bool)) then
    (dictInsert acc.1 f.address
      (f.stack_grow + maxD (f.call_addresses.map (fun c => (acc.1.lookup c).getD 0))),
     true)
  else acc

/-- One pass of the solver's `while True` loop: take the functions not yet in
the dictionary (computed at pass start, as in the source), and resolve every
one whose call targets are all already resolved, updating the dictionary as
the pass proceeds.  Returns the updated dictionary and the `changed` flag. -/
def solverPass (fns : List PFunc) (resolved : List (Nat × Nat)) :
    List (Nat × Nat) × Bool :=
  let functions_unresolved := fns.filter (fun f => ((resolved.lookup f.address).isNone : Bool))
  functions_unresolved.foldl solverStep (resolved, false)

/-- The solver's outer `while True: ... if not changed: break` loop, with fuel.
Each changed pass resolves at least one new address, so `fns.length + 1` units
of fuel always reach the fixpoint (proved below). -/
def solverLoop : Nat → List PFunc → List (Nat × Nat) → List (Nat × Nat)
  | 0, _, resolved => resolved
  | fuel + 1, fns, resolved =>
    let passResult := solverPass fns resolved
    if passResult.2 then solverLoop fuel fns passResult.1 else passResult.1

/-- `parse_stack_grow_cumulative_by_function_address` (program/parse.py).
On success, the mapping address ↦ cumulative stack growth; on failure (some
function never resolves), the `ValueError` naming the unresolved functions,
embedded as the list of their addresses. -/
def parse_stack_grow_cumulative_by_function_address (fns : List PFunc) :
    Except (List Nat) (List (Nat × Nat)) :=
  let resolved := solverLoop (fns.length + 1) fns []
  let function_addresses_unresolved :=
    (fns.map PFunc.address).filter (fun a => ((resolved.lookup a).isNone : Bool))
  if function_addresses_unresolved.isEmpty then .ok resolved
  else .error function_addresses_unresolved

/-- `parse_functions` (program/parse.py): run the solver, then rebuild every
function with its cumulative stack growth.  The Python dictionary access
`stack_grow_cumulative_by_function_address[parent_function.address]` cannot
fail after a successful solve (every address is resolved then, proved below);
the embedding uses `getD 0` for totality. -/
def parse_functions (fns : List PFunc) : Except (List Nat) (List ProgramFunction) := do
  let m ← parse_stack_grow_cumulative_by_function_address fns
  pure (fns.map (fun f =>
    { address := f.address
      stack_grow := f.stack_grow
      stack_grow_cumulative := (m.lookup f.address).getD 0
      call_addresses := f.call_addresses }))

/-- The static call-graph edge relation: address `a` (of some function in the
collection) calls address `b`. -/
def Calls (fns : List PFunc) (a b : Nat) : Prop :=
  ∃ f ∈ fns, f.address = a ∧ b ∈ f.call_addresses

/-- Some function lies on a call-graph cycle: some address reaches itself
through one or more call edges. -/
def HasCallCycle (fns : List PFunc) : Prop :=
  ∃ a, Relation.TransGen (Calls fns) a a

/-! ### Association-list and `maxD` helper lemmas -/

theorem lookup_append_of_some {l l' : List (Nat × Nat)} {k v : Nat}
    (h : l.lookup k = some v) : (l ++ l').lookup k = some v := by
  induction l with
  | nil => simp [List.lookup] at h
  | cons p t ih =>
    rw [List.cons_append] at *
    rw [List.lookup_cons] at h ⊢
    cases hk : (k == p.1) with
    | true => simp only [hk] at h ⊢; exact h
    | false => simp only [hk] at h ⊢; exact ih h

theorem lookup_append_of_none {l l' : List (Nat × Nat)} {k : Nat}
    (h : l.lookup k = none) : (l ++ l').lookup k = l'.lookup k := by
  induction l with
  | nil => simp
  | cons p t ih =>
    rw [List.cons_append] at *
    rw [List.lookup_cons] at h ⊢
    cases hk : (k == p.1) with
    | true => simp only [hk] at h; exact (Option.some_ne_none _ h).elim
    | false => simp only [hk] at h ⊢; exact ih h

theorem lookup_eq_none_iff {l : List (Nat × Nat)} {k : Nat} :
    l.lookup k = none ↔ k ∉ l.map Prod.fst := by
  induction l with
  | nil => simp
  | cons p t ih =>
    rw [List.lookup_cons]
    cases hk : (k == p.1) with
    | true =>
      simp only [hk]
      simp only [beq_iff_eq] at hk
      simp [hk]
    | false =>
      simp only [hk]
      simp only [beq_eq_false_iff_ne, ne_eq] at hk
      simp [ih, hk]

theorem lookup_isSome_of_append_some {l l' : List (Nat × Nat)} {k : Nat}
    (h : (l.lookup k).isSome) : ((l ++ l').lookup k).isSome := by
  obtain ⟨v, hv⟩ := Option.isSome_iff_exists.mp h
  rw [lookup_append_of_some hv]
  rfl

theorem maxD_mem_le {l : List Nat} {x : Nat} (h : x ∈ l) : x ≤ maxD l := by
  induction l with
  | nil => simp at h
  | cons a t ih =>
    rcases List.mem_cons.mp h with h | h
    · subst h; exact le_max_left _ _
    · exact le_trans (ih h) (le_max_right _ _)

theorem maxD_mod_eq_zero {l : List Nat} {d : Nat}
    (h : ∀ x ∈ l, x % d = 0) : maxD l % d = 0 := by
  induction l with
  | nil => simp [maxD, Nat.zero_mod]
  | cons a t ih =>
    show max a (maxD t) % d = 0
    rcases max_choice a (maxD t) with hm | hm
    · rw [hm]; exact h a (List.mem_cons_self a t)
    · rw [hm]; exact ih fun x hx => h x (List.mem_cons_of_mem _ hx)

/-! ### Structure of the solver dictionary -/

/-- Invariant of the solver dictionary: it is built left to right, each new
entry holding a not-yet-resolved address of one of the functions, all of whose
call targets are resolved by earlier entries, and whose value is given by the
cumulative-stack recurrence over those earlier entries. -/
inductive GoodMap (fns : List PFunc) : List (Nat × Nat) → Prop
  | nil : GoodMap fns []
  | snoc {m : List (Nat × Nat)} {a v : Nat} (hm : GoodMap fns m)
      (hfresh : m.lookup a = none)
      (hf : ∃ f ∈ fns, f.address = a ∧
        (∀ c ∈ f.call_addresses, (m.lookup c).isSome) ∧
        v = f.stack_grow + maxD (f.call_addresses.map (fun c => (m.lookup c).getD 0))) :
      GoodMap fns (m ++ [(a, v)])

theorem GoodMap.keys_sub {fns : List PFunc} {m : List (Nat × Nat)} (hg : GoodMap fns m) :
    ∀ p ∈ m, p.1 ∈ fns.map PFunc.address := by
  induction hg with
  | nil => simp
  | snoc hm hfresh hf ih =>
    intro p hp
    rcases List.mem_append.mp hp with hp | hp
    · exact ih p hp
    · obtain ⟨f, hfmem, hfa, -, -⟩ := hf
      simp only [List.mem_singleton] at hp
      subst hp
      exact List.mem_map.mpr ⟨f, hfmem, hfa⟩

theorem GoodMap.keys_nodup {fns : List PFunc} {m : List (Nat × Nat)} (hg : GoodMap fns m) :
    (m.map Prod.fst).Nodup := by
  induction hg with
  | nil => simp
  | snoc hm hfresh hf ih =>
    rw [List.map_append]
    refine List.Nodup.append ih (by simp) ?_
    intro x hx hx'
    simp only [List.map_cons, List.map_nil, List.mem_singleton] at hx'
    subst hx'
    exact (lookup_eq_none_iff.mp hfresh) hx

theorem GoodMap.length_le {fns : List PFunc} {m : List (Nat × Nat)} (hg : GoodMap fns m) :
    m.length ≤ fns.length := by
  have h1 : (m.map Prod.fst).toFinset.card = m.length := by
    rw [List.toFinset_card_of_nodup hg.keys_nodup, List.length_map]
  have h2 : (m.map Prod.fst).toFinset ⊆ (fns.map PFunc.address).toFinset := by
    intro a ha
    rw [List.mem_toFinset] at ha ⊢
    obtain ⟨p, hp, hpa⟩ := List.mem_map.mp ha
    exact hpa ▸ hg.keys_sub p hp
  calc m.length = (m.map Prod.fst).toFinset.card := h1.symm
    _ ≤ (fns.map PFunc.address).toFinset.card := Finset.card_le_card h2
    _ ≤ (fns.map PFunc.address).length := List.toFinset_card_le _
    _ = fns.length := List.length_map _ _

/-- Every value in a well-built solver dictionary satisfies the cumulative
recurrence with respect to the dictionary itself. -/
theorem GoodMap.lookup_rec {fns : List PFunc} {m : List (Nat × Nat)} (hg : GoodMap fns m) :
    ∀ a v, m.lookup a = some v → ∃ f ∈ fns, f.address = a ∧
      (∀ c ∈ f.call_addresses, (m.lookup c).isSome) ∧
      v = f.stack_grow + maxD (f.call_addresses.map (fun c => (m.lookup c).getD 0)) := by
  induction hg with
  | nil => intro a v h; simp [List.lookup] at h
  | @snoc m a0 v0 hm hfresh hf ih =>
    intro a v h
    have transport : ∀ (f : PFunc), (∀ c ∈ f.call_addresses, (m.lookup c).isSome) →
        (∀ c ∈ f.call_addresses, ((m ++ [(a0, v0)]).lookup c).isSome) ∧
        maxD (f.call_addresses.map (fun c => (m.lookup c).getD 0)) =
          maxD (f.call_addresses.map (fun c => ((m ++ [(a0, v0)]).lookup c).getD 0)) := by
      intro f hc
      constructor
      · intro c hcmem; exact lookup_isSome_of_append_some (hc c hcmem)
      · congr 1
        refine List.map_congr_left ?_
        intro c hcmem
        obtain ⟨w, hw⟩ := Option.isSome_iff_exists.mp (hc c hcmem)
        rw [hw, lookup_append_of_some hw]
    cases hsome : m.lookup a with
    | some w =>
      have hv : w = v := by
        rw [lookup_append_of_some hsome] at h
        exact (Option.some_injective _ h)
      subst hv
      obtain ⟨f, hfmem, hfa, hc, hval⟩ := ih a w hsome
      obtain ⟨hc', hmax⟩ := transport f hc
      exact ⟨f, hfmem, hfa, hc', by rw [hval, hmax]⟩
    | none =>
      rw [lookup_append_of_none hsome, List.lookup_cons] at h
      cases hk : (a == a0) with
      | false => simp [hk] at h
      | true =>
        simp only [hk] at h
        have hA : a = a0 := by simpa using hk
        have hV : v0 = v := by simpa using h
        obtain ⟨f, hfmem, hfa, hc, hval⟩ := hf
        obtain ⟨hc', hmax⟩ := transport f hc
        have hval' : v = f.stack_grow +
            maxD (List.map (fun c => (List.lookup c m).getD 0) f.call_addresses) := hV ▸ hval
        exact ⟨f, hfmem, by rw [hfa, hA], hc',
          hval'.trans (congrArg (f.stack_grow + ·) hmax)⟩

/-- Two functions of a nodup-address collection with the same address are the
same function (the `Functions` containers assert strictly sorted addresses). -/
theorem addr_inj {fns : List PFunc} (hnodup : (fns.map PFunc.address).Nodup)
    {f g : PFunc} (hf : f ∈ fns) (hg : g ∈ fns) (h : f.address = g.address) : f = g :=
  List.inj_on_of_nodup_map hnodup hf hg h

/-- C9 invariant carrier: every value of a well-built solver dictionary is a
multiple of 4 and at least the own stack growth of its function (given that
every own stack growth is a multiple of 4). -/
theorem GoodMap.values {fns : List PFunc} {m : List (Nat × Nat)}
    (hnodup : (fns.map PFunc.address).Nodup)
    (h4 : ∀ f ∈ fns, f.stack_grow % 4 = 0) (hg : GoodMap fns m) :
    ∀ a v, m.lookup a = some v →
      v % 4 = 0 ∧ ∀ f ∈ fns, f.address = a → f.stack_grow ≤ v := by
  induction hg with
  | nil => intro a v h; simp [List.lookup] at h
  | @snoc m a0 v0 hm hfresh hf ih =>
    intro a v h
    cases hsome : m.lookup a with
    | some w =>
      have hv : w = v := by
        rw [lookup_append_of_some hsome] at h
        exact (Option.some_injective _ h)
      exact hv ▸ ih a w hsome
    | none =>
      rw [lookup_append_of_none hsome, List.lookup_cons] at h
      cases hk : (a == a0) with
      | false => simp [hk] at h
      | true =>
        simp only [hk] at h
        have hA : a = a0 := by simpa using hk
        have hV : v0 = v := by simpa using h
        obtain ⟨f, hfmem, hfa, hc, hval⟩ := hf
        have hmax4 :
            maxD (f.call_addresses.map (fun c => (m.lookup c).getD 0)) % 4 = 0 := by
          refine maxD_mod_eq_zero ?_
          intro x hx
          obtain ⟨c, hcmem, hcx⟩ := List.mem_map.mp hx
          obtain ⟨w, hw⟩ := Option.isSome_iff_exists.mp (hc c hcmem)
          have := (ih c w hw).1
          rw [← hcx, hw]
          simpa using this
        constructor
        · have hsg4 := h4 f hfmem
          omega
        · intro g hgmem hga
          have hgf : g = f := addr_inj hnodup hgmem hfmem (by rw [hga, hA, ← hfa])
          subst hgf
          omega

/-- If a nonempty set of addresses is a "trap" (every member calls another
member), none of its members ever enters the solver dictionary. -/
theorem GoodMap.trap {fns : List PFunc} {m : List (Nat × Nat)}
    (hnodup : (fns.map PFunc.address).Nodup) (hg : GoodMap fns m)
    (T : List Nat) (htrap : ∀ x ∈ T, ∃ y ∈ T, Calls fns x y) :
    ∀ x ∈ T, m.lookup x = none := by
  induction hg with
  | nil => intro x _; simp
  | @snoc m a0 v0 hm hfresh hf ih =>
    intro x hx
    rw [lookup_append_of_none (ih x hx), List.lookup_cons]
    cases hk : (x == a0) with
    | false => simp
    | true =>
      exfalso
      have hX : x = a0 := by simpa using hk
      obtain ⟨y, hymem, g, hgmem, hga, hyg⟩ := htrap x hx
      obtain ⟨f, hfmem, hfa, hc, -⟩ := hf
      have hgf : g = f := addr_inj hnodup hgmem hfmem (by rw [hga, hX, ← hfa])
      subst hgf
      have : (m.lookup y).isSome := hc y hyg
      rw [ih y hymem] at this
      simp at this

/-! ### The solver pass and loop -/

theorem pass_go (fns : List PFunc) :
    ∀ (l : List PFunc) (acc : List (Nat × Nat)) (ch : Bool),
      (∀ f ∈ l, f ∈ fns) →
      (∀ f ∈ l, acc.lookup f.address = none) →
      ((l.map PFunc.address).Nodup) →
      GoodMap fns acc →
      ∃ Δ : List (Nat × Nat),
        l.foldl solverStep (acc, ch) = (acc ++ Δ, ch || !Δ.isEmpty) ∧
        GoodMap fns (acc ++ Δ) ∧
        (Δ = [] → ∀ f ∈ l,
          f.call_addresses.all (fun c => ((acc.lookup c).isSome : Bool)) = false) := by
  intro l
  induction l with
  | nil =>
    intro acc ch _ _ _ hg
    exact ⟨[], by simp, by simpa using hg, by simp⟩
  | cons f t ih =>
    intro acc ch hmem hnone hnodup hg
    rw [List.foldl_cons]
    by_cases hcond : f.call_addresses.all (fun c => ((acc.lookup c).isSome : Bool)) = true
    · have hfresh : acc.lookup f.address = none := hnone f (List.mem_cons_self f t)
      have hstep : solverStep (acc, ch) f =
          (acc ++ [(f.address,
            f.stack_grow + maxD (f.call_addresses.map (fun c => (acc.lookup c).getD 0)))],
           true) := by
        simp only [solverStep, hcond, if_true, dictInsert, hfresh, Option.isSome_none,
          Bool.false_eq_true, if_false]
      rw [hstep]
      have hgood' : GoodMap fns (acc ++ [(f.address,
          f.stack_grow + maxD (f.call_addresses.map (fun c => (acc.lookup c).getD 0)))]) :=
        GoodMap.snoc hg hfresh
          ⟨f, hmem f (List.mem_cons_self f t), rfl,
            fun c hc => by
              have := List.all_eq_true.mp hcond c hc
              simpa using this,
            rfl⟩
      have hn := hnodup
      rw [List.map_cons, List.nodup_cons] at hn
      obtain ⟨hnotmem, hnodupt⟩ := hn
      obtain ⟨Δ', heq, hgood, hnil⟩ := ih
        (acc ++ [(f.address,
          f.stack_grow + maxD (f.call_addresses.map (fun c => (acc.lookup c).getD 0)))]) true
        (fun g hg => hmem g (List.mem_cons_of_mem _ hg))
        (fun g hgmem => by
          rw [lookup_append_of_none (hnone g (List.mem_cons_of_mem _ hgmem)),
            List.lookup_cons]
          have hne : g.address ≠ f.address := by
            intro hcontra
            exact hnotmem (List.mem_map.mpr ⟨g, hgmem, hcontra⟩)
          have hbe : (g.address == f.address) = false := beq_eq_false_iff_ne.mpr hne
          simp [hbe])
        hnodupt
        hgood'
      refine ⟨(f.address,
        f.stack_grow + maxD (f.call_addresses.map (fun c => (acc.lookup c).getD 0))) :: Δ',
        ?_, ?_, ?_⟩
      · rw [heq]
        simp [List.append_assoc]
      · have : acc ++ [(f.address,
            f.stack_grow + maxD (f.call_addresses.map (fun c => (acc.lookup c).getD 0)))] ++ Δ'
            = acc ++ ((f.address,
            f.stack_grow + maxD (f.call_addresses.map (fun c => (acc.lookup c).getD 0))) :: Δ') := by
          rw [List.append_assoc]
          rfl
        rw [← this]
        exact hgood
      · intro h
        simp at h
    · have hstep : solverStep (acc, ch) f = (acc, ch) := by
        simp only [solverStep]
        rw [if_neg hcond]
      rw [hstep]
      have hn := hnodup
      rw [List.map_cons, List.nodup_cons] at hn
      obtain ⟨hnotmem, hnodupt⟩ := hn
      obtain ⟨Δ', heq, hgood, hnil⟩ := ih acc ch
        (fun g hg => hmem g (List.mem_cons_of_mem _ hg))
        (fun g hg => hnone g (List.mem_cons_of_mem _ hg))
        hnodupt
        hg
      refine ⟨Δ', heq, hgood, ?_⟩
      intro h g hgmem
      rcases List.mem_cons.mp hgmem with hgf | hgt
      · subst hgf
        exact Bool.eq_false_iff.mpr hcond
      · exact hnil h g hgt

theorem loop_fix (fns : List PFunc) (hnodup : (fns.map PFunc.address).Nodup) :
    ∀ (fuel : Nat) (m : List (Nat × Nat)), GoodMap fns m →
      fns.length + 1 ≤ fuel + m.length →
      GoodMap fns (solverLoop fuel fns m) ∧
        (∀ f ∈ fns, (solverLoop fuel fns m).lookup f.address = none →
          f.call_addresses.all
            (fun c => (((solverLoop fuel fns m).lookup c).isSome : Bool)) = false) := by
  intro fuel
  induction fuel with
  | zero =>
    intro m hg hlen
    exact absurd hlen (by have := hg.length_le; omega)
  | succ fuel ih =>
    intro m hg hlen
    have hfilter_mem : ∀ f ∈ fns.filter
        (fun f => ((m.lookup f.address).isNone : Bool)), f ∈ fns :=
      fun f hf => (List.mem_filter.mp hf).1
    have hfilter_none : ∀ f ∈ fns.filter
        (fun f => ((m.lookup f.address).isNone : Bool)), m.lookup f.address = none :=
      fun f hf => Option.isNone_iff_eq_none.mp (by simpa using (List.mem_filter.mp hf).2)
    have hfilter_nodup : ((fns.filter
        (fun f => ((m.lookup f.address).isNone : Bool))).map PFunc.address).Nodup :=
      List.Nodup.sublist (List.Sublist.map _ (List.filter_sublist fns)) hnodup
    obtain ⟨Δ, heq, hgood, hnil⟩ :=
      pass_go fns (fns.filter (fun f => ((m.lookup f.address).isNone : Bool))) m false
        hfilter_mem hfilter_none hfilter_nodup hg
    have hpass : solverPass fns m = (m ++ Δ, !Δ.isEmpty) := by
      simpa [solverPass] using heq
    cases hΔ : Δ with
    | nil =>
      subst hΔ
      have hloop : solverLoop (fuel + 1) fns m = m := by
        show (let pr := solverPass fns m; if pr.2 then solverLoop fuel fns pr.1 else pr.1) = m
        rw [hpass]
        simp
      rw [hloop]
      refine ⟨hg, ?_⟩
      intro f hf hnoneF
      exact hnil rfl f (List.mem_filter.mpr ⟨hf, by simp [hnoneF]⟩)
    | cons p Δ' =>
      have hloop : solverLoop (fuel + 1) fns m = solverLoop fuel fns (m ++ Δ) := by
        show (let pr := solverPass fns m; if pr.2 then solverLoop fuel fns pr.1 else pr.1)
          = solverLoop fuel fns (m ++ Δ)
        rw [hpass]
        simp [hΔ]
      rw [hloop]
      refine ih (m ++ Δ) hgood ?_
      have : 1 ≤ Δ.length := by simp [hΔ]
      have hlen' : (m ++ Δ).length = m.length + Δ.length := List.length_append m Δ
      omega

/-! ### Cycles in finite graphs -/

/-- Every element of a chain either has a successor inside the chain, or is
the chain's last element. -/
theorem chain_mem_succ_or_last {R : Nat → Nat → Prop} :
    ∀ (l : List Nat) (c : Nat), List.Chain R c l → ∀ x ∈ c :: l,
      (∃ y ∈ c :: l, R x y) ∨ x = (c :: l).getLast (List.cons_ne_nil c l) := by
  intro l
  induction l with
  | nil =>
    intro c _ x hx
    right
    simpa using hx
  | cons d t ih =>
    intro c hchain x hx
    obtain ⟨hcd, hchain'⟩ := List.chain_cons.mp hchain
    rcases List.mem_cons.mp hx with hxc | hxdt
    · exact Or.inl ⟨d, List.mem_cons_of_mem _ (List.mem_cons_self d t), hxc ▸ hcd⟩
    · rcases ih d hchain' x hxdt with ⟨y, hy, hR⟩ | hlast
      · exact Or.inl ⟨y, List.mem_cons_of_mem _ hy, hR⟩
      · right
        rw [hlast]
        exact (List.getLast_cons (List.cons_ne_nil d t)).symm

/-- A cycle through `a` yields a nonempty trap set: a list of addresses that
each call another address in the list. -/
theorem trap_of_cycle {fns : List PFunc} (h : HasCallCycle fns) :
    ∃ T : List Nat, T ≠ [] ∧ ∀ x ∈ T, ∃ y ∈ T, Calls fns x y := by
  obtain ⟨a, htg⟩ := h
  obtain ⟨b, hab, hba⟩ := Relation.TransGen.tail'_iff.mp htg
  obtain ⟨l, hchain, hlast⟩ := List.exists_chain_of_relationReflTransGen hab
  refine ⟨a :: l, List.cons_ne_nil a l, ?_⟩
  intro x hx
  rcases chain_mem_succ_or_last l a hchain x hx with ⟨y, hy, hR⟩ | hxlast
  · exact ⟨y, hy, hR⟩
  · refine ⟨a, List.mem_cons_self a l, ?_⟩
    rw [hxlast, hlast]
    exact hba

/-- Pigeonhole: if every element of a nonempty finite list has an `R`-successor
inside the list, then `R` has a cycle. -/
theorem exists_cycle_of_succ {R : Nat → Nat → Prop} (U : List Nat) (hne : U ≠ [])
    (hsucc : ∀ x ∈ U, ∃ y, y ∈ U ∧ R x y) : ∃ z, Relation.TransGen R z z := by
  classical
  obtain ⟨a0, ha0⟩ := List.exists_mem_of_ne_nil U hne
  let step : {x : Nat // x ∈ U} → {x : Nat // x ∈ U} := fun x =>
    ⟨(hsucc x.1 x.2).choose, (hsucc x.1 x.2).choose_spec.1⟩
  have hstep : ∀ x : {x : Nat // x ∈ U}, R x.1 (step x).1 :=
    fun x => (hsucc x.1 x.2).choose_spec.2
  let seq : Nat → {x : Nat // x ∈ U} := fun n => step^[n] ⟨a0, ha0⟩
  have hseq : ∀ n, R (seq n).1 (seq (n + 1)).1 := by
    intro n
    have h1 : seq (n + 1) = step (seq n) := Function.iterate_succ_apply' step n _
    rw [h1]
    exact hstep _
  have htg : ∀ i j, i < j → Relation.TransGen R (seq i).1 (seq j).1 := by
    intro i j
    induction j with
    | zero => omega
    | succ j ihj =>
      intro hij
      rcases Nat.lt_succ_iff_lt_or_eq.mp hij with h | h
      · exact (ihj h).tail (hseq j)
      · subst h
        exact Relation.TransGen.single (hseq i)
  have hmap : ∀ i : Fin (U.length + 1), (seq i.1).1 ∈ U.toFinset :=
    fun i => List.mem_toFinset.mpr (seq i.1).2
  have hcard : U.toFinset.card < (Finset.univ : Finset (Fin (U.length + 1))).card := by
    have := List.toFinset_card_le U
    simp only [Finset.card_univ, Fintype.card_fin]
    omega
  obtain ⟨i, -, j, -, hij, heq⟩ :=
    Finset.exists_ne_map_eq_of_card_lt_of_maps_to hcard (fun i _ => hmap i)
  rcases Nat.lt_or_ge i.1 j.1 with hlt | hge
  · exact ⟨(seq i.1).1, by
      have := htg i.1 j.1 hlt
      rw [heq] at this ⊢
      exact this⟩
  · have hlt : j.1 < i.1 := by
      rcases Nat.lt_or_ge j.1 i.1 with h | h
      · exact h
      · exact absurd (Fin.ext (le_antisymm h hge)) hij
    exact ⟨(seq j.1).1, by
      have := htg j.1 i.1 hlt
      rw [heq] at this
      exact this⟩

/-! ### Shared solver-result facts -/

/-- Unfolding of `parse_stack_grow_cumulative_by_function_address`. -/
theorem solve_cases (fns : List PFunc) :
    parse_stack_grow_cumulative_by_function_address fns =
      (if ((fns.map PFunc.address).filter
            (fun a => (((solverLoop (fns.length + 1) fns []).lookup a).isNone : Bool))).isEmpty
        then .ok (solverLoop (fns.length + 1) fns [])
        else .error ((fns.map PFunc.address).filter
            (fun a => (((solverLoop (fns.length + 1) fns []).lookup a).isNone : Bool)))) := rfl

/-- If the solver succeeds, the result is a well-built dictionary that
resolves the address of every function. -/
theorem solve_ok_facts (fns : List PFunc) (hnodup : (fns.map PFunc.address).Nodup)
    {m : List (Nat × Nat)}
    (h : parse_stack_grow_cumulative_by_function_address fns = .ok m) :
    GoodMap fns m ∧ ∀ f ∈ fns, (m.lookup f.address).isSome := by
  obtain ⟨hgood, -⟩ := loop_fix fns hnodup (fns.length + 1) [] GoodMap.nil (by simp)
  rw [solve_cases] at h
  by_cases hempty : ((fns.map PFunc.address).filter
      (fun a => (((solverLoop (fns.length + 1) fns []).lookup a).isNone : Bool))).isEmpty
  · rw [if_pos hempty] at h
    have hm : solverLoop (fns.length + 1) fns [] = m := by
      injection h
    subst hm
    refine ⟨hgood, ?_⟩
    intro f hf
    by_contra hnone
    have hnone' := Option.not_isSome_iff_eq_none.mp hnone
    have hmem : f.address ∈ (fns.map PFunc.address).filter
        (fun a => (((solverLoop (fns.length + 1) fns []).lookup a).isNone : Bool)) :=
      List.mem_filter.mpr ⟨List.mem_map.mpr ⟨f, hf, rfl⟩, by simp [hnone']⟩
    rw [List.isEmpty_iff.mp hempty] at hmem
    simp at hmem
  · rw [if_neg hempty] at h
    exact absurd h (by simp)

/-- C2: for every input whose static call graph is acyclic (and whose
addresses are unique and call targets closed, as the `Functions` containers
assert), the cumulative-stack solver assigns to every function `f` exactly
`stack_grow_cumulative f = stack_grow f + max of the cumulatives of its call
targets` (`0` when it has no call targets); and it raises the error naming the
affected functions if and only if some function lies on a call-graph cycle. -/
theorem parse_stack_grow_cumulative_spec (fns : List PFunc)
    (hnodup : (fns.map PFunc.address).Nodup)
    (hclosed : ∀ f ∈ fns, ∀ c ∈ f.call_addresses, c ∈ fns.map PFunc.address) :
    (¬ HasCallCycle fns →
      ∃ m, parse_stack_grow_cumulative_by_function_address fns = .ok m ∧
        ∀ f ∈ fns, m.lookup f.address =
          some (f.stack_grow + maxD (f.call_addresses.map (fun c => (m.lookup c).getD 0)))) ∧
    ((∃ e, parse_stack_grow_cumulative_by_function_address fns = .error e ∧ e ≠ []) ↔
      HasCallCycle fns) := by
  obtain ⟨hgood, hfix⟩ := loop_fix fns hnodup (fns.length + 1) [] GoodMap.nil (by simp)
  have hUsucc : ∀ x ∈ (fns.map PFunc.address).filter
      (fun a => (((solverLoop (fns.length + 1) fns []).lookup a).isNone : Bool)),
      ∃ y, y ∈ (fns.map PFunc.address).filter
        (fun a => (((solverLoop (fns.length + 1) fns []).lookup a).isNone : Bool)) ∧
        Calls fns x y := by
    intro x hx
    obtain ⟨hxaddr, hxnone⟩ := List.mem_filter.mp hx
    obtain ⟨f, hf, hfa⟩ := List.mem_map.mp hxaddr
    have hnoneF : (solverLoop (fns.length + 1) fns []).lookup f.address = none := by
      rw [hfa]
      simpa using hxnone
    have hall := hfix f hf hnoneF
    obtain ⟨c, hcmem, hcnone⟩ := List.all_eq_false.mp hall
    have hcnone' : (solverLoop (fns.length + 1) fns []).lookup c = none :=
      Option.not_isSome_iff_eq_none.mp hcnone
    refine ⟨c, List.mem_filter.mpr ⟨hclosed f hf c hcmem, by simp [hcnone']⟩, f, hf, hfa, hcmem⟩
  have hcyc_of_ne : ((fns.map PFunc.address).filter
      (fun a => (((solverLoop (fns.length + 1) fns []).lookup a).isNone : Bool))) ≠ [] →
      HasCallCycle fns :=
    fun hne => exists_cycle_of_succ _ hne hUsucc
  have hne_of_cyc : HasCallCycle fns →
      ((fns.map PFunc.address).filter
        (fun a => (((solverLoop (fns.length + 1) fns []).lookup a).isNone : Bool))) ≠ [] := by
    intro hcyc
    obtain ⟨T, hTne, hTtrap⟩ := trap_of_cycle hcyc
    have hTnone := hgood.trap hnodup T hTtrap
    obtain ⟨x0, hx0⟩ := List.exists_mem_of_ne_nil T hTne
    obtain ⟨y, -, f, hf, hfa, -⟩ := hTtrap x0 hx0
    have hx0mem : x0 ∈ (fns.map PFunc.address).filter
        (fun a => (((solverLoop (fns.length + 1) fns []).lookup a).isNone : Bool)) :=
      List.mem_filter.mpr ⟨List.mem_map.mpr ⟨f, hf, hfa⟩, by simp [hTnone x0 hx0]⟩
    intro hcontra
    rw [hcontra] at hx0mem
    simp at hx0mem
  constructor
  · intro hnocyc
    have hUnil : ((fns.map PFunc.address).filter
        (fun a => (((solverLoop (fns.length + 1) fns []).lookup a).isNone : Bool))) = [] := by
      by_contra hne
      exact hnocyc (hcyc_of_ne hne)
    have hok : parse_stack_grow_cumulative_by_function_address fns =
        .ok (solverLoop (fns.length + 1) fns []) := by
      rw [solve_cases, hUnil]
      rfl
    obtain ⟨-, hres⟩ := solve_ok_facts fns hnodup hok
    refine ⟨solverLoop (fns.length + 1) fns [], hok, ?_⟩
    intro f hf
    obtain ⟨v, hv⟩ := Option.isSome_iff_exists.mp (hres f hf)
    obtain ⟨g, hgmem, hga, -, hval⟩ := hgood.lookup_rec f.address v hv
    have hgf : g = f := addr_inj hnodup hgmem hf hga
    subst hgf
    rw [hv, hval]
  · constructor
    · rintro ⟨e, herr, -⟩
      by_cases hempty : ((fns.map PFunc.address).filter
          (fun a => (((solverLoop (fns.length + 1) fns []).lookup a).isNone : Bool))).isEmpty
      · rw [solve_cases, if_pos hempty] at herr
        exact absurd herr (by simp)
      · refine hcyc_of_ne ?_
        intro hcontra
        rw [hcontra] at hempty
        simp at hempty
    · intro hcyc
      have hne := hne_of_cyc hcyc
      have hempty : ((fns.map PFunc.address).filter
          (fun a => (((solverLoop (fns.length + 1) fns []).lookup a).isNone : Bool))).isEmpty
          = false := by
        cases hE : ((fns.map PFunc.address).filter
            (fun a => (((solverLoop (fns.length + 1) fns []).lookup a).isNone : Bool))).isEmpty
        · rfl
        · exact absurd (List.isEmpty_iff.mp hE) hne
      refine ⟨(fns.map PFunc.address).filter
        (fun a => (((solverLoop (fns.length + 1) fns []).lookup a).isNone : Bool)), ?_, hne⟩
      rw [solve_cases, hempty]
      rfl

/-- Witness for C2 on a concrete acyclic input: a single function at
address `0x100` with own stack growth 8 and no call targets. -/
theorem parse_stack_grow_cumulative_spec_witness :
    ∃ m, parse_stack_grow_cumulative_by_function_address
        [{ address := 0x100, stack_grow := 8, call_addresses := [] }] = .ok m ∧
      ∀ f ∈ [({ address := 0x100, stack_grow := 8, call_addresses := [] } : PFunc)],
        m.lookup f.address =
          some (f.stack_grow + maxD (f.call_addresses.map (fun c => (m.lookup c).getD 0))) := by
  refine (parse_stack_grow_cumulative_spec
    [{ address := 0x100, stack_grow := 8, call_addresses := [] }]
    (by decide) (by decide)).1 ?_
  rintro ⟨a, htg⟩
  obtain ⟨b, hab, -⟩ := Relation.TransGen.head'_iff.mp htg
  obtain ⟨f, hf, -, hc⟩ := hab
  have : f = { address := 0x100, stack_grow := 8, call_addresses := [] } := by
    simpa using hf
  subst this
  simp at hc

/-- C9: for every function in the program-level collection produced by
`parse_functions` (hence for every value produced by the cumulative-stack
solver), `stack_grow_cumulative ≥ stack_grow` and `stack_grow_cumulative` is a
multiple of 4, given that every function's own `stack_grow` is a (non-negative)
multiple of 4. -/
theorem program_functions_invariant (fns : List PFunc)
    (hnodup : (fns.map PFunc.address).Nodup)
    (h4 : ∀ f ∈ fns, f.stack_grow % 4 = 0) :
    ∀ l, parse_functions fns = .ok l →
      ∀ g ∈ l, g.stack_grow ≤ g.stack_grow_cumulative ∧
        g.stack_grow_cumulative % 4 = 0 := by
  intro l hok g hg
  unfold parse_functions at hok
  cases hsolve : parse_stack_grow_cumulative_by_function_address fns with
  | error e =>
    rw [hsolve] at hok
    exact absurd hok (by simp [bind, Except.bind])
  | ok m =>
    rw [hsolve] at hok
    have hl : l = fns.map (fun f =>
        ({ address := f.address
           stack_grow := f.stack_grow
           stack_grow_cumulative := (m.lookup f.address).getD 0
           call_addresses := f.call_addresses } : ProgramFunction)) := by
      have := hok
      simp only [bind, Except.bind, pure, Except.pure, Except.ok.injEq] at this
      exact this.symm
    subst hl
    obtain ⟨f, hf, hgf⟩ := List.mem_map.mp hg
    obtain ⟨hgood, hres⟩ := solve_ok_facts fns hnodup hsolve
    obtain ⟨v, hv⟩ := Option.isSome_iff_exists.mp (hres f hf)
    obtain ⟨h4v, hle⟩ := hgood.values hnodup h4 f.address v hv
    subst hgf
    simp only [hv, Option.getD_some]
    exact ⟨hle f hf rfl, h4v⟩

/-- Witness for C9 on a concrete input: the program-level function built from
a single function with stack growth 8 satisfies the invariant. -/
theorem program_functions_invariant_witness :
    ({ address := 0x100, stack_grow := 8, stack_grow_cumulative := 8,
       call_addresses := [] } : ProgramFunction).stack_grow ≤
      ({ address := 0x100, stack_grow := 8, stack_grow_cumulative := 8,
         call_addresses := [] } : ProgramFunction).stack_grow_cumulative ∧
    ({ address := 0x100, stack_grow := 8, stack_grow_cumulative := 8,
       call_addresses := [] } : ProgramFunction).stack_grow_cumulative % 4 = 0 :=
  program_functions_invariant
    [{ address := 0x100, stack_grow := 8, call_addresses := [] }]
    (by decide) (by decide)
    [{ address := 0x100, stack_grow := 8, stack_grow_cumulative := 8, call_addresses := [] }]
    (by rfl)
    { address := 0x100, stack_grow := 8, stack_grow_cumulative := 8, call_addresses := [] }
    (by simp)

/-! ## Entrypoint aggregator

Embedding of `parse_entrypoints` and `resolve_entrypoint_from_entrypoint_vector`
(program/parse.py), over the entrypoint model of `entrypoints/model.py`. -/

/-- `entrypoints/common.py`: Cortex-M0 has 2 configurable priority bits,
hence 4 priority groups. -/
def PRIORITY_GROUPS : Nat := 4

/-- `entrypoints/model.py:EntrypointVector`. -/
structure EntrypointVector where
  address : Nat
deriving DecidableEq, Repr

/-- `entrypoints/model.py:EntrypointVectorWithPriorityGroup`
(`none` = unspecified priority group). -/
structure EntrypointVectorWithPriorityGroup where
  vector : EntrypointVector
  priority_group : Option Nat
deriving DecidableEq, Repr

/-- `entrypoints/model.py:EntrypointInterrupt`. -/
structure EntrypointInterrupt where
  number : Nat
  name : String
  vector_with_priority_group : EntrypointVectorWithPriorityGroup
deriving DecidableEq, Repr

/-- `entrypoints/model.py:Entrypoints` (the raw entrypoints fed into the
aggregator). -/
structure ParentEntrypoints where
  reset : EntrypointVector
  nmi : Option EntrypointVector
  hardfault : EntrypointVector
  svcall : Option EntrypointVectorWithPriorityGroup
  pendsv : Option EntrypointVectorWithPriorityGroup
  systick : Option EntrypointVectorWithPriorityGroup
  interrupts : List EntrypointInterrupt
deriving DecidableEq, Repr

/-- `program/model.py:Entrypoint`. -/
structure Entrypoint where
  address : Nat
  name : String
  stack_grow : Nat
deriving DecidableEq, Repr

/-- `program/model.py:EntrypointsPriorityGroup`. -/
structure EntrypointsPriorityGroup where
  entrypoints : List Entrypoint
  name : String
  stack_grow : Nat
deriving DecidableEq, Repr

/-- `program/model.py:Entrypoints` (program level). -/
structure Entrypoints where
  priority_groups : List EntrypointsPriorityGroup
  stack_size : Nat
deriving DecidableEq, Repr

/-- `resolve_entrypoint_from_entrypoint_vector` (program/parse.py): look the
function up by address (`by_address` dictionary, embedded as first-match
search over the address-unique collection); its cumulative stack usage, plus
the 8x4-byte exception frame for exceptions, rounded up to an 8-byte boundary.
Python computes `math.ceil(stack_grow / 8) * 8`; for the non-negative integers
involved this is exactly `((stack_grow + 7) / 8) * 8` in natural division. -/
def resolve_entrypoint_from_entrypoint_vector (entrypoint_vector : EntrypointVector)
    (name : String) (is_exception : Bool) (functions : List ProgramFunction) :
    Except String Entrypoint :=
  match functions.find? (fun f => f.address == entrypoint_vector.address) with
  | none => .error "Unable to find function at address pointed by entrypoint vector."
  | some function =>
    let stack_grow := function.stack_grow_cumulative + (if is_exception then 8 * 4 else 0)
    let stack_grow := ((stack_grow + 7) / 8) * 8
    .ok { address := function.address, name := name, stack_grow := stack_grow }

/-- `resolve_entrypoint_priority_group` (program/parse.py): the group's stack
growth is the worst case over its members.  Python's `max` (no default) is
called on non-empty collections at every call site; `maxD` returns 0 on `[]`. -/
def resolve_entrypoint_priority_group (entrypoints : List Entrypoint) (name : String) :
    EntrypointsPriorityGroup :=
  { entrypoints := entrypoints
    name := name
    stack_grow := maxD (entrypoints.map Entrypoint.stack_grow) }

/-- Python `d.setdefault(k, []).append(e)` on an insertion-ordered dictionary
embedded as an association list. -/
def dictSetdefaultAppend (d : List (Nat × List Entrypoint)) (k : Nat) (e : Entrypoint) :
    List (Nat × List Entrypoint) :=
  if d.any (fun p => p.1 == k) then d.map (fun p => if p.1 = k then (p.1, p.2 ++ [e]) else p)
  else d ++ [(k, [e])]

/-- `handle_vector_with_priority_group` (inner function of `parse_entrypoints`):
resolve the entrypoint (always an exception/interrupt, so with frame), then
file it under its priority group, or append it to the unknown-priority list. -/
def handle_vector_with_priority_group
    (functions : List ProgramFunction)
    (st : List (Nat × List Entrypoint) × List Entrypoint)
    (vwpg : EntrypointVectorWithPriorityGroup) (name : String) :
    Except String (List (Nat × List Entrypoint) × List Entrypoint) := do
  let entrypoint ← resolve_entrypoint_from_entrypoint_vector vwpg.vector name true functions
  match vwpg.priority_group with
  | some pg => pure (dictSetdefaultAppend st.1 pg entrypoint, st.2)
  | none => pure (st.1, st.2 ++ [entrypoint])

/-- The configurable vectors in the order `parse_entrypoints` handles them:
SVCall, PendSV, SysTick, then the number-sorted interrupts. -/
def vector_priority_list (pe : ParentEntrypoints) :
    List (EntrypointVectorWithPriorityGroup × String) :=
  (match pe.svcall with | some v => [(v, "SVCall")] | none => []) ++
  (match pe.pendsv with | some v => [(v, "PendSV")] | none => []) ++
  (match pe.systick with | some v => [(v, "SysTick")] | none => []) ++
  pe.interrupts.map (fun i => (i.vector_with_priority_group, i.name))

/-- Stable insertion of a group into a descending-sorted list: placed after
every strictly heavier group and before equal-weight ones already present
(which come later in the original order). -/
def insertDescByStackGrow (g : EntrypointsPriorityGroup) :
    List EntrypointsPriorityGroup → List EntrypointsPriorityGroup
  | [] => [g]
  | h :: t =>
    if g.stack_grow < h.stack_grow then h :: insertDescByStackGrow g t
    else g :: h :: t

/-- Python `sorted(key=lambda g: g.stack_grow, reverse=True)`: a stable sort,
descending by `stack_grow`, embedded as a stable insertion sort. -/
def sortedByStackGrowDesc (l : List EntrypointsPriorityGroup) :
    List EntrypointsPriorityGroup :=
  l.foldr insertDescByStackGrow []

/-- The priority-group list built by `parse_entrypoints` (program/parse.py):
the non-configurable singleton groups (Reset, NMI when enabled, HardFault),
followed by the `PRIORITY_GROUPS` heaviest of the configurable groups —
grouped by known priority index, singletons for unknown priority — taken in
descending `stack_grow` order. -/
def parse_entrypoints_priority_groups (pe : ParentEntrypoints)
    (functions : List ProgramFunction) :
    Except String (List EntrypointsPriorityGroup) :=
  (resolve_entrypoint_from_entrypoint_vector pe.reset "Reset" false functions).bind (fun resetE =>
  (match pe.nmi with
    | some v => (resolve_entrypoint_from_entrypoint_vector v "NMI" true functions).map
        (fun e => [resolve_entrypoint_priority_group [e] "NMI"])
    | none => .ok ([] : List EntrypointsPriorityGroup)).bind (fun nmiGroups =>
  (resolve_entrypoint_from_entrypoint_vector pe.hardfault "HardFault" true functions).bind
    (fun hardfaultE =>
  ((vector_priority_list pe).foldlM
    (fun (st : List (Nat × List Entrypoint) × List Entrypoint)
        (p : EntrypointVectorWithPriorityGroup × String) =>
      handle_vector_with_priority_group functions st p.1 p.2)
    ([], [])).bind (fun (st : List (Nat × List Entrypoint) × List Entrypoint) =>
  .ok ([resolve_entrypoint_priority_group [resetE] "Reset"] ++ nmiGroups ++
    [resolve_entrypoint_priority_group [hardfaultE] "HardFault"] ++
    (sortedByStackGrowDesc
      (st.1.map (fun (p : Nat × List Entrypoint) =>
        resolve_entrypoint_priority_group p.2 ("Priority Group #" ++ toString p.1)) ++
       st.2.map (fun (e : Entrypoint) =>
        resolve_entrypoint_priority_group [e] "Unknown priority group"))).take
      PRIORITY_GROUPS)))))

/-- `parse_entrypoints` (program/parse.py): the program's `stack_size` is the
sum of the resulting priority groups' `stack_grow`. -/
def parse_entrypoints (pe : ParentEntrypoints) (functions : List ProgramFunction) :
    Except String Entrypoints :=
  (parse_entrypoints_priority_groups pe functions).map (fun groups =>
    { priority_groups := groups
      stack_size := (groups.map EntrypointsPriorityGroup.stack_grow).sum })

/-- The S5 scenario's analyzed functions: Reset handler (cumulative 64),
HardFault handler (cumulative 16), two interrupt handlers (cumulatives 40 and
56), and one unknown-priority interrupt handler (cumulative 80). -/
def S5_functions : List ProgramFunction :=
  [{ address := 0x100, stack_grow := 0, stack_grow_cumulative := 64, call_addresses := [] },
   { address := 0x120, stack_grow := 0, stack_grow_cumulative := 16, call_addresses := [] },
   { address := 0x140, stack_grow := 0, stack_grow_cumulative := 40, call_addresses := [] },
   { address := 0x160, stack_grow := 0, stack_grow_cumulative := 56, call_addresses := [] },
   { address := 0x180, stack_grow := 0, stack_grow_cumulative := 80, call_addresses := [] }]

/-- The S5 scenario's raw entrypoints: Reset and HardFault, interrupts at
priority groups 0 and 1, and one interrupt of unknown priority. -/
def S5_parent_entrypoints : ParentEntrypoints :=
  { reset := { address := 0x100 }
    nmi := none
    hardfault := { address := 0x120 }
    svcall := none
    pendsv := none
    systick := none
    interrupts :=
      [{ number := 0, name := "I0"
         vector_with_priority_group := { vector := { address := 0x140 }, priority_group := some 0 } },
       { number := 1, name := "I1"
         vector_with_priority_group := { vector := { address := 0x160 }, priority_group := some 1 } },
       { number := 2, name := "IUnknown"
         vector_with_priority_group := { vector := { address := 0x180 }, priority_group := none } }] }

/-- Splitting a successful `Except` bind. -/
theorem except_bind_ok {α β : Type} {x : Except String α} {f : α → Except String β} {b : β}
    (h : x.bind f = .ok b) : ∃ a, x = .ok a ∧ f a = .ok b := by
  cases x with
  | error e => exact absurd h (by simp [Except.bind])
  | ok a => exact ⟨a, rfl, by simpa [Except.bind] using h⟩

theorem insertDescByStackGrow_perm (g : EntrypointsPriorityGroup)
    (l : List EntrypointsPriorityGroup) :
    (insertDescByStackGrow g l).Perm (g :: l) := by
  induction l with
  | nil => simp [insertDescByStackGrow]
  | cons h t ih =>
    rw [insertDescByStackGrow]
    by_cases hc : g.stack_grow < h.stack_grow
    · rw [if_pos hc]
      exact (List.Perm.cons h ih).trans (List.Perm.swap g h t)
    · rw [if_neg hc]

theorem sortedByStackGrowDesc_perm (l : List EntrypointsPriorityGroup) :
    (sortedByStackGrowDesc l).Perm l := by
  induction l with
  | nil => simp [sortedByStackGrowDesc]
  | cons h t ih =>
    have : sortedByStackGrowDesc (h :: t) = insertDescByStackGrow h (sortedByStackGrowDesc t) := rfl
    rw [this]
    exact (insertDescByStackGrow_perm h (sortedByStackGrowDesc t)).trans (List.Perm.cons h ih)

theorem insertDescByStackGrow_pairwise (g : EntrypointsPriorityGroup)
    (l : List EntrypointsPriorityGroup)
    (hl : l.Pairwise (fun a b => b.stack_grow ≤ a.stack_grow)) :
    (insertDescByStackGrow g l).Pairwise (fun a b => b.stack_grow ≤ a.stack_grow) := by
  induction l with
  | nil => simp [insertDescByStackGrow]
  | cons h t ih =>
    obtain ⟨hhead, htail⟩ := List.pairwise_cons.mp hl
    rw [insertDescByStackGrow]
    by_cases hc : g.stack_grow < h.stack_grow
    · rw [if_pos hc]
      refine List.pairwise_cons.mpr ⟨?_, ih htail⟩
      intro x hx
      have hx' : x ∈ g :: t := (insertDescByStackGrow_perm g t).mem_iff.mp hx
      rcases List.mem_cons.mp hx' with hxg | hxt
      · exact hxg ▸ le_of_lt hc
      · exact hhead x hxt
    · rw [if_neg hc]
      refine List.pairwise_cons.mpr ⟨?_, hl⟩
      intro x hx
      rcases List.mem_cons.mp hx with hxh | hxt
      · subst hxh; omega
      · exact le_trans (hhead x hxt) (by omega)

theorem sortedByStackGrowDesc_pairwise (l : List EntrypointsPriorityGroup) :
    (sortedByStackGrowDesc l).Pairwise (fun a b => b.stack_grow ≤ a.stack_grow) := by
  induction l with
  | nil => simp [sortedByStackGrowDesc]
  | cons h t ih => exact insertDescByStackGrow_pairwise h (sortedByStackGrowDesc t) ih

/-- C1: entrypoint aggregation.  Reset, HardFault and (when enabled) NMI form
their own singleton priority groups; configurable entrypoints with a known
priority-group index are grouped by index while unknown-priority ones form
singletons; from the union of both the top `PRIORITY_GROUPS = 4` heaviest
groups by `stack_grow` (descending, a stable permutation sort) are selected;
and the program's `stack_size` is the sum of the `stack_grow` of all resulting
groups.  On the S5 inputs the per-group stack grows are `[64, 48, 112, 88, 72]`
and the whole-program total is 384. -/
theorem parse_entrypoints_spec :
    (∀ (pe : ParentEntrypoints) (functions : List ProgramFunction) (ep : Entrypoints),
      parse_entrypoints pe functions = .ok ep →
        ∃ groups, parse_entrypoints_priority_groups pe functions = .ok groups ∧
          ep.priority_groups = groups ∧
          ep.stack_size = (groups.map EntrypointsPriorityGroup.stack_grow).sum) ∧
    (∀ l : List EntrypointsPriorityGroup,
      (sortedByStackGrowDesc l).Perm l ∧
      (sortedByStackGrowDesc l).Pairwise (fun a b => b.stack_grow ≤ a.stack_grow)) ∧
    (parse_entrypoints S5_parent_entrypoints S5_functions).map
        (fun ep => (ep.stack_size, ep.priority_groups.map EntrypointsPriorityGroup.stack_grow)) =
      .ok (384, [64, 48, 112, 88, 72]) := by
  refine ⟨?_, fun l => ⟨sortedByStackGrowDesc_perm l, sortedByStackGrowDesc_pairwise l⟩, rfl⟩
  intro pe functions ep hok
  unfold parse_entrypoints at hok
  cases hg : parse_entrypoints_priority_groups pe functions with
  | error e =>
    rw [hg] at hok
    exact absurd hok (by simp [Except.map])
  | ok groups =>
    rw [hg] at hok
    simp only [Except.map, Except.ok.injEq] at hok
    exact ⟨groups, rfl, by rw [← hok], by rw [← hok]⟩

/-- The program-level entrypoints computed for the S5 scenario. -/
def S5_result : Entrypoints :=
  { priority_groups :=
      [{ entrypoints := [{ address := 0x100, name := "Reset", stack_grow := 64 }]
         name := "Reset", stack_grow := 64 },
       { entrypoints := [{ address := 0x120, name := "HardFault", stack_grow := 48 }]
         name := "HardFault", stack_grow := 48 },
       { entrypoints := [{ address := 0x180, name := "IUnknown", stack_grow := 112 }]
         name := "Unknown priority group", stack_grow := 112 },
       { entrypoints := [{ address := 0x160, name := "I1", stack_grow := 88 }]
         name := "Priority Group #1", stack_grow := 88 },
       { entrypoints := [{ address := 0x140, name := "I0", stack_grow := 72 }]
         name := "Priority Group #0", stack_grow := 72 }]
    stack_size := 384 }

/-- Witness for C1: the S5 aggregation succeeds and its `stack_size` is the
sum of its groups' `stack_grow`. -/
theorem parse_entrypoints_spec_witness :
    ∃ groups, parse_entrypoints_priority_groups S5_parent_entrypoints S5_functions = .ok groups ∧
      S5_result.priority_groups = groups ∧
      S5_result.stack_size = (groups.map EntrypointsPriorityGroup.stack_grow).sum :=
  parse_entrypoints_spec.1 S5_parent_entrypoints S5_functions S5_result rfl

/-- C5: lifting an entrypoint vector produces
`stack_grow = ceil((stack_grow_cumulative fn + exception_frame) / 8) * 8` with
`exception_frame = 32` bytes for every exception/interrupt entrypoint and `0`
for Reset (the only vector `parse_entrypoints` lifts with
`is_exception = false`): the result is the least multiple of 8 at least
`cumulative + frame`. -/
theorem resolve_entrypoint_from_entrypoint_vector_spec :
    (∀ (v : EntrypointVector) (name : String) (is_exception : Bool)
        (functions : List ProgramFunction) (g : ProgramFunction),
      functions.find? (fun f => f.address == v.address) = some g →
        resolve_entrypoint_from_entrypoint_vector v name is_exception functions =
          .ok { address := g.address, name := name,
                stack_grow :=
                  ((g.stack_grow_cumulative + (if is_exception then 8 * 4 else 0)) + 7) / 8 * 8 } ∧
        (∀ e, resolve_entrypoint_from_entrypoint_vector v name is_exception functions = .ok e →
          e.stack_grow % 8 = 0 ∧
          g.stack_grow_cumulative + (if is_exception then 32 else 0) ≤ e.stack_grow ∧
          e.stack_grow < g.stack_grow_cumulative + (if is_exception then 32 else 0) + 8)) ∧
    (∀ (pe : ParentEntrypoints) (functions : List ProgramFunction) (ep : Entrypoints),
      parse_entrypoints pe functions = .ok ep →
        ∃ g, functions.find? (fun f => f.address == pe.reset.address) = some g ∧
          ep.priority_groups.head? = some (resolve_entrypoint_priority_group
            [{ address := g.address, name := "Reset",
               stack_grow := (g.stack_grow_cumulative + 7) / 8 * 8 }] "Reset")) := by
  constructor
  · intro v name is_exception functions g hfind
    have hres : resolve_entrypoint_from_entrypoint_vector v name is_exception functions =
        .ok { address := g.address, name := name,
              stack_grow :=
                ((g.stack_grow_cumulative + (if is_exception then 8 * 4 else 0)) + 7) / 8 * 8 } := by
      unfold resolve_entrypoint_from_entrypoint_vector
      rw [hfind]
    refine ⟨hres, ?_⟩
    intro e he
    rw [hres] at he
    have he' : e = { address := g.address, name := name,
                     stack_grow := ((g.stack_grow_cumulative +
                       (if is_exception then 8 * 4 else 0)) + 7) / 8 * 8 } := by
      injection he with h
      exact h.symm
    subst he'
    cases is_exception with
    | true =>
      refine ⟨Nat.mul_mod_left _ 8, ?_, ?_⟩ <;> simp <;> omega
    | false =>
      refine ⟨Nat.mul_mod_left _ 8, ?_, ?_⟩ <;> simp <;> omega
  · intro pe functions ep hok
    unfold parse_entrypoints at hok
    cases hg : parse_entrypoints_priority_groups pe functions with
    | error e =>
      rw [hg] at hok
      exact absurd hok (by simp [Except.map])
    | ok groups =>
      rw [hg] at hok
      simp only [Except.map, Except.ok.injEq] at hok
      unfold parse_entrypoints_priority_groups at hg
      obtain ⟨resetE, hreset, hg⟩ := except_bind_ok hg
      obtain ⟨nmiGroups, hnmi, hg⟩ := except_bind_ok hg
      obtain ⟨hardfaultE, hhf, hg⟩ := except_bind_ok hg
      obtain ⟨st, hst, hg⟩ := except_bind_ok hg
      have hgroups : groups =
          [resolve_entrypoint_priority_group [resetE] "Reset"] ++ nmiGroups ++
          [resolve_entrypoint_priority_group [hardfaultE] "HardFault"] ++
          (sortedByStackGrowDesc
            ((st : List (Nat × List Entrypoint) × List Entrypoint).1.map (fun p =>
              resolve_entrypoint_priority_group p.2 ("Priority Group #" ++ toString p.1)) ++
             st.2.map (fun e =>
              resolve_entrypoint_priority_group [e] "Unknown priority group"))).take
            PRIORITY_GROUPS := by
        have := hg
        simp only [Except.ok.injEq] at this
        exact this.symm
      cases hfind : functions.find? (fun f => f.address == pe.reset.address) with
      | none =>
        unfold resolve_entrypoint_from_entrypoint_vector at hreset
        rw [hfind] at hreset
        exact absurd hreset (by simp)
      | some g =>
        refine ⟨g, rfl, ?_⟩
        have hresetE : resetE = { address := g.address, name := "Reset",
                                  stack_grow := (g.stack_grow_cumulative + 7) / 8 * 8 } := by
          unfold resolve_entrypoint_from_entrypoint_vector at hreset
          rw [hfind] at hreset
          injection hreset with h
          rw [← h]
          simp
        rw [← hok, hgroups, hresetE]
        simp

/-- Witness for C5 on a concrete input: a function with cumulative 20 at
address `0x100`, lifted as an exception: `ceil((20 + 32) / 8) * 8 = 56`. -/
theorem resolve_entrypoint_from_entrypoint_vector_spec_witness :
    resolve_entrypoint_from_entrypoint_vector { address := 0x100 } "IRQ" true
      [{ address := 0x100, stack_grow := 0, stack_grow_cumulative := 20,
         call_addresses := [] }] =
      .ok { address := 0x100, name := "IRQ", stack_grow := 56 } :=
  (resolve_entrypoint_from_entrypoint_vector_spec.1 { address := 0x100 } "IRQ" true
    [{ address := 0x100, stack_grow := 0, stack_grow_cumulative := 20, call_addresses := [] }]
    { address := 0x100, stack_grow := 0, stack_grow_cumulative := 20, call_addresses := [] }
    rfl).1

/-! ## Decoder dispatch loop

Embedding of `instructions_from_opcodes` (instructions_decoder/parse.py).
The 16-bit and 32-bit table decoders (`instruction_from_opcode_halfword`,
`instruction_from_opcode_word`) are applied pointwise after dispatch; the
embedding records the dispatch events (which decoder is invoked, on which
opcode value), which is what the verified property is about. -/

/-- A dispatch decision of the decoder loop: a 16-bit decode of a half-word
value, or a 32-bit decode of a word value. -/
inductive DecodedDispatch
  | d16 (opcode_halfword : Nat)
  | d32 (opcode_word : Nat)
deriving DecidableEq, Repr

/-- Errors of the decoder loop: a 32-bit encoding whose second half-word is
missing entirely (`ValueError("32 bit instruction ended prematurely.")`), or
an odd-length stream whose final 1-byte chunk has no second byte (Python
`IndexError` on `opcode_halfword_bytes[1]`). -/
inductive DecodeStreamError
  | truncated32
  | missingSecondByte
deriving DecidableEq, Repr

/-- `more_itertools.chunked_even(bytes, 2)`: chunks of two bytes, with a final
one-byte chunk when the length is odd. -/
def chunked_even2 : List Nat → List (List Nat)
  | [] => []
  | [b] => [[b]]
  | b0 :: b1 :: rest => [b0, b1] :: chunked_even2 rest

/-- The `while True` loop of `instructions_from_opcodes` over the half-word
chunks: read a half-word; if the five most-significant bits of its second
byte are `0b11101`, `0b11110` or `0b11111`, read one more half-word chunk and
dispatch the 32-bit decoder on
`int.from_bytes(chain(half2_bytes, half1_bytes), "little")`; otherwise
dispatch the 16-bit decoder on the half-word. -/
def instructions_from_opcodes_loop : List (List Nat) →
    Except DecodeStreamError (List DecodedDispatch)
  | [] => .ok []
  | chunk :: rest =>
    match chunk with
    | b0 :: b1 :: _ =>
      if b1 >>> 3 = 0b11101 ∨ b1 >>> 3 = 0b11110 ∨ b1 >>> 3 = 0b11111 then
        match rest with
        | [] => .error .truncated32
        | chunk2 :: rest2 =>
          (instructions_from_opcodes_loop rest2).map
            (fun ds => .d32 (int_from_bytes_le (chunk2 ++ [b0, b1])) :: ds)
      else
        (instructions_from_opcodes_loop rest).map
          (fun ds => .d16 (int_from_bytes_le [b0, b1]) :: ds)
    | _ => .error .missingSecondByte

/-- `instructions_from_opcodes` (instructions_decoder/parse.py), as the list
of decoder dispatches it performs. -/
def instructions_from_opcodes (opcodes_bytes : List Nat) :
    Except DecodeStreamError (List DecodedDispatch) :=
  instructions_from_opcodes_loop (chunked_even2 opcodes_bytes)

/-- C7: the decoder reads a half-word as two bytes little-endian; when the
five most-significant bits of the second byte are `11101`, `11110` or `11111`
it reads one more half-word and dispatches the 32-bit decoder on the word
whose upper 16 bits are the first half-word and lower 16 bits the second
half-word (`(half1 << 16) | half2`, i.e. the spec's concatenation with the
first half-word on top); otherwise it dispatches the 16-bit decoder on the
half-word; a 32-bit encoding whose second half-word is missing is an error. -/
theorem instructions_from_opcodes_spec (b0 b1 : Nat) (rest : List Nat) :
    ((b1 >>> 3 = 0b11101 ∨ b1 >>> 3 = 0b11110 ∨ b1 >>> 3 = 0b11111) →
      (rest = [] →
        instructions_from_opcodes (b0 :: b1 :: rest) = .error .truncated32) ∧
      (∀ b2 b3 rest2, rest = b2 :: b3 :: rest2 →
        instructions_from_opcodes (b0 :: b1 :: rest) =
          (instructions_from_opcodes rest2).map
            (fun ds => .d32 ((b0 + 256 * b1) * 65536 + (b2 + 256 * b3)) :: ds))) ∧
    (¬(b1 >>> 3 = 0b11101 ∨ b1 >>> 3 = 0b11110 ∨ b1 >>> 3 = 0b11111) →
      instructions_from_opcodes (b0 :: b1 :: rest) =
        (instructions_from_opcodes rest).map
          (fun ds => .d16 (b0 + 256 * b1) :: ds)) := by
  have hval : ∀ b2 b3 : Nat, int_from_bytes_le ([b2, b3] ++ [b0, b1]) =
      (b0 + 256 * b1) * 65536 + (b2 + 256 * b3) := by
    intro b2 b3
    simp only [int_from_bytes_le, List.cons_append, List.nil_append, List.foldr]
    ring
  have h16 : int_from_bytes_le [b0, b1] = b0 + 256 * b1 := by
    simp only [int_from_bytes_le, List.foldr]
    ring
  have hstep1 : instructions_from_opcodes_loop [[b0, b1]] =
      (if b1 >>> 3 = 0b11101 ∨ b1 >>> 3 = 0b11110 ∨ b1 >>> 3 = 0b11111 then
        .error .truncated32
      else
        (instructions_from_opcodes_loop []).map
          (fun ds => .d16 (int_from_bytes_le [b0, b1]) :: ds)) := rfl
  have hstep2 : ∀ (c2 : List Nat) (r2 : List (List Nat)),
      instructions_from_opcodes_loop ([b0, b1] :: c2 :: r2) =
      (if b1 >>> 3 = 0b11101 ∨ b1 >>> 3 = 0b11110 ∨ b1 >>> 3 = 0b11111 then
        (instructions_from_opcodes_loop r2).map
          (fun ds => .d32 (int_from_bytes_le (c2 ++ [b0, b1])) :: ds)
      else
        (instructions_from_opcodes_loop (c2 :: r2)).map
          (fun ds => .d16 (int_from_bytes_le [b0, b1]) :: ds)) := fun c2 r2 => rfl
  constructor
  · intro hcond
    constructor
    · intro hrest
      subst hrest
      show instructions_from_opcodes_loop [[b0, b1]] = .error .truncated32
      rw [hstep1, if_pos hcond]
    · intro b2 b3 rest2 hrest
      subst hrest
      show instructions_from_opcodes_loop ([b0, b1] :: [b2, b3] :: chunked_even2 rest2) = _
      rw [hstep2, if_pos hcond, hval b2 b3]
      rfl
  · intro hcond
    cases rest with
    | nil =>
      show instructions_from_opcodes_loop [[b0, b1]] = _
      rw [hstep1, if_neg hcond, h16]
      rfl
    | cons r0 rrest =>
      show instructions_from_opcodes_loop ([b0, b1] :: chunked_even2 (r0 :: rrest)) = _
      cases rrest with
      | nil =>
        rw [show chunked_even2 [r0] = [[r0]] from rfl, hstep2, if_neg hcond, h16]
        rfl
      | cons r1 rrest2 =>
        rw [show chunked_even2 (r0 :: r1 :: rrest2) = [r0, r1] :: chunked_even2 rrest2 from rfl,
          hstep2, if_neg hcond, h16]
        rfl

/-- Witness for C7: the 16-bit NOP `BF 00`, the 32-bit `BL` prefix `F0 00`
followed by `F8 00`, and a truncated 32-bit prefix. -/
theorem instructions_from_opcodes_spec_witness :
    (instructions_from_opcodes [0x00, 0xF0] = .error .truncated32) ∧
    (instructions_from_opcodes [0x00, 0xF0, 0x00, 0xF8] =
      .ok [.d32 (0xF000 * 65536 + 0xF800)]) ∧
    (instructions_from_opcodes [0x00, 0xBF] = .ok [.d16 0xBF00]) := by
  refine ⟨?_, ?_, ?_⟩
  · exact ((instructions_from_opcodes_spec 0x00 0xF0 []).1 (by decide)).1 rfl
  · have h := ((instructions_from_opcodes_spec 0x00 0xF0 [0x00, 0xF8]).1 (by decide)).2
      0x00 0xF8 [] rfl
    rw [h]
    rfl
  · have h := (instructions_from_opcodes_spec 0x00 0xBF []).2 (by decide)
    rw [h]
    rfl

/-! ## Cursor layer and PC-effect resolvers

Embedding of the function-local cursors
(functions/s03_instructions/cursor.py, over the region model of
functions/s03_instructions/model.py) and of the jump-table and BLX resolvers
(functions/s04_instructions_effect/_program_counter_effect.py). -/

/-- 3-bit register (instructions_decoder/model.py:Register3). -/
inductive Reg3
  | r0 | r1 | r2 | r3 | r4 | r5 | r6 | r7
deriving DecidableEq, Repr

/-- 4-bit register (instructions_decoder/model.py:Register4). -/
inductive Reg4
  | r0 | r1 | r2 | r3 | r4 | r5 | r6 | r7 | r8 | r9 | r10 | r11 | r12 | sp | lr | pc
deriving DecidableEq, Repr

/-- `Register4.from_register3`. -/
def Reg4.from_register3 : Reg3 → Reg4
  | .r0 => .r0 | .r1 => .r1 | .r2 => .r2 | .r3 => .r3
  | .r4 => .r4 | .r5 => .r5 | .r6 => .r6 | .r7 => .r7

/-- `Register4.to_register3`: `none` for R8..PC. -/
def Reg4.to_register3 : Reg4 → Option Reg3
  | .r0 => some .r0 | .r1 => some .r1 | .r2 => some .r2 | .r3 => some .r3
  | .r4 => some .r4 | .r5 => some .r5 | .r6 => some .r6 | .r7 => some .r7
  | _ => none

/-- The instruction variants the jump-table and BLX resolvers pattern-match on
(instructions_decoder/model.py).  Every other ARMv6-M variant is `other`,
carrying its encoded size and write set — the only attributes these resolvers
consult on instructions outside the patterns. -/
inductive MInstr
  | addRegisterT2 (dn m : Reg4)
  | lslImmediateT1 (d m : Reg3) (imm : Nat)
  | ldrImmediateT1 (t n : Reg3) (imm : Nat)
  | ldrbImmediateT1 (t n : Reg3) (imm : Nat)
  | ldrhImmediateT1 (t n : Reg3) (imm : Nat)
  | ldrLiteralT1 (t : Reg3) (imm : Nat)
  | blxRegisterT1 (m : Reg4)
  | other (size : Nat) (affects : List Reg4)
deriving DecidableEq, Repr

/-- `Instruction.size()`: the modelled concrete variants are all 16-bit. -/
def MInstr.size : MInstr → Nat
  | .other s _ => s
  | _ => 2

/-- `Instruction.affects_registers()` for the modelled variants. -/
def MInstr.affects_registers : MInstr → List Reg4
  | .addRegisterT2 dn _ => [dn]
  | .lslImmediateT1 d _ _ => [Reg4.from_register3 d]
  | .ldrImmediateT1 t _ _ => [Reg4.from_register3 t]
  | .ldrbImmediateT1 t _ _ => [Reg4.from_register3 t]
  | .ldrhImmediateT1 t _ _ => [Reg4.from_register3 t]
  | .ldrLiteralT1 t _ => [Reg4.from_register3 t]
  | .blxRegisterT1 _ => [Reg4.lr, Reg4.pc]
  | .other _ affects => affects

/-- The `case BaseInstructionLdrImmediate()` match: `(t, n, imm, load_size)`
of an LDR/LDRB/LDRH (immediate) T1 instruction. -/
def MInstr.ldr_immediate? : MInstr → Option (Reg3 × Reg3 × Nat × Nat)
  | .ldrImmediateT1 t n imm => some (t, n, imm, 4)
  | .ldrbImmediateT1 t n imm => some (t, n, imm, 1)
  | .ldrhImmediateT1 t n imm => some (t, n, imm, 2)
  | _ => none

/-- A function region (functions/s03_instructions/model.py):
`FunctionRegionInstructions` or `FunctionRegionData`. -/
inductive MRegion
  | instrs (function_offset : Nat) (instructions : List MInstr)
  | data (function_offset : Nat) (data : List Nat)
deriving DecidableEq, Repr

def MRegion.function_offset : MRegion → Nat
  | .instrs o _ => o
  | .data o _ => o

/-- Region size: total encoded size of the instructions, or the byte count. -/
def MRegion.size : MRegion → Nat
  | .instrs _ il => (il.map MInstr.size).sum
  | .data _ bs => bs.length

/-- A function with its ordered regions (functions/s03_instructions/model.py:
`Function`; `size` and `names` are not consulted by the resolvers). -/
structure MFunction where
  address : Nat
  regions : List MRegion
deriving DecidableEq, Repr

/-- `cursor.py:CursorFunctionRegionData` (the parent `CursorFunction` holds
only the function). -/
structure CursorFunctionRegionData where
  function : MFunction
  function_regions_index : Nat
  function_region_data_offset : Nat
deriving DecidableEq, Repr

/-- The data region a data cursor points into — always defined for cursors the
source constructs (`_function_region_data` asserts the region type). -/
def CursorFunctionRegionData.region? (c : CursorFunctionRegionData) :
    Option (Nat × List Nat) :=
  match c.function.regions.get? c.function_regions_index with
  | some (.data o bs) => some (o, bs)
  | _ => none

/-- Errors of the cursor reads and the PC-effect resolvers.  `assertionFailed`
is a failed Python `assert`; `fuelExhausted` is a model artifact of the fueled
loops, proved unreachable at the fuel the embedding passes; `invalidCursor`
covers cursor accessors on indices the source's constructors assert valid. -/
inductive ResolveError
  | assertionFailed
  | fuelExhausted
  | invalidCursor
  | badReadWidth
  | unalignedRead
  | readOverflow
  | thumbBitNotSet
  | addRegisterT2PcUnknown
  | blxUnknown
deriving DecidableEq, Repr

/-- `CursorFunctionRegionData.read_unsigned` (cursor.py): an aligned
little-endian unsigned read of `bytes_` bytes.  The access must be aligned
with respect to the absolute address; the end must not pass the region end;
the advanced cursor is `none` exactly when the read ends at the region end. -/
def CursorFunctionRegionData.read_unsigned (c : CursorFunctionRegionData) (bytes_ : Nat) :
    Except ResolveError (Nat × Option CursorFunctionRegionData) :=
  match c.region? with
  | none => .error .invalidCursor
  | some (region_offset, data) =>
    if bytes_ = 0 ∨ (bytes_ &&& (bytes_ - 1)) ≠ 0 then .error .badReadWidth
    else if (c.function.address + region_offset + c.function_region_data_offset) % bytes_ ≠ 0 then
      .error .unalignedRead
    else if c.function_region_data_offset + bytes_ > data.length then
      .error .readOverflow
    else
      .ok (int_from_bytes_le ((data.drop c.function_region_data_offset).take bytes_),
        if c.function_region_data_offset + bytes_ < data.length then
          some { c with function_region_data_offset := c.function_region_data_offset + bytes_ }
        else none)

/-- `read_word_unsigned` (cursor.py). -/
def CursorFunctionRegionData.read_word_unsigned (c : CursorFunctionRegionData) :
    Except ResolveError (Nat × Option CursorFunctionRegionData) :=
  c.read_unsigned 4

/-- `CursorFunction.region_data` (cursor.py): bisect the region start offsets
for the last region starting at or before `function_offset` (the offsets are
increasing by the s03 invariant, so the filter count equals the bisect
insertion point; an all-greater offset list yields Python index `-1`, i.e. the
last region).  Returns a data cursor iff the hit is a data region containing
`function_offset`; the left-boundary `assert` of the source holds for
offset-sorted regions. -/
def MFunction.region_data (f : MFunction) (function_offset : Nat) :
    Option CursorFunctionRegionData :=
  let k := (f.regions.filter (fun r => r.function_offset ≤ function_offset)).length
  let function_regions_index := if k = 0 then f.regions.length - 1 else k - 1
  match f.regions.get? function_regions_index with
  | none => none
  | some (.instrs _ _) => none
  | some (.data region_offset data) =>
    if function_offset ≥ region_offset + data.length then none
    else some { function := f, function_regions_index := function_regions_index,
                function_region_data_offset := function_offset - region_offset }

/-- `cursor.py:CursorFunctionRegionInstructions`. -/
structure CursorFunctionRegionInstructions where
  function : MFunction
  function_regions_index : Nat
  function_region_instructions_index : Nat
deriving DecidableEq, Repr

/-- The instructions region the cursor points into. -/
def CursorFunctionRegionInstructions.region? (c : CursorFunctionRegionInstructions) :
    Option (Nat × List MInstr) :=
  match c.function.regions.get? c.function_regions_index with
  | some (.instrs o il) => some (o, il)
  | _ => none

/-- `instruction()`. -/
def CursorFunctionRegionInstructions.instruction? (c : CursorFunctionRegionInstructions) :
    Option MInstr :=
  match c.region? with
  | some (_, il) => il.get? c.function_region_instructions_index
  | none => none

/-- Region-relative start offset of the `i`-th instruction
(`instructions_with_function_offsets`). -/
def instr_offset_in_region (il : List MInstr) (i : Nat) : Nat :=
  ((il.take i).map MInstr.size).sum

/-- `function_offset()`. -/
def CursorFunctionRegionInstructions.function_offset? (c : CursorFunctionRegionInstructions) :
    Option Nat :=
  match c.region? with
  | some (o, il) => some (o + instr_offset_in_region il c.function_region_instructions_index)
  | none => none

/-- `function_end_offset()`. -/
def CursorFunctionRegionInstructions.function_end_offset? (c : CursorFunctionRegionInstructions) :
    Option Nat :=
  match c.region?, c.instruction? with
  | some (o, il), some ins =>
    some (o + instr_offset_in_region il c.function_region_instructions_index + ins.size)
  | _, _ => none

/-- `address()`. -/
def CursorFunctionRegionInstructions.address? (c : CursorFunctionRegionInstructions) :
    Option Nat :=
  (c.function_offset?).map (c.function.address + ·)

/-- `previous()`: the previous instruction in the same region, `none` at the
region start. -/
def CursorFunctionRegionInstructions.previous (c : CursorFunctionRegionInstructions) :
    Option CursorFunctionRegionInstructions :=
  if c.function_region_instructions_index ≤ 0 then none
  else some { c with
    function_region_instructions_index := c.function_region_instructions_index - 1 }

/-- `_program_counter_effect.py:EffectBranch` (targets as a Python
`frozenset`). -/
structure EffectBranch where
  conditional : Bool
  target_function_offsets : Finset Nat
deriving DecidableEq

/-- `_program_counter_effect.py:EffectCall`. -/
structure EffectCall where
  target_addresses : Finset Nat
deriving DecidableEq

/-- `EffectBranch` construction with its `__post_init__` asserts: at least one
target, all targets half-word aligned. -/
def mkEffectBranch (conditional : Bool) (target_function_offsets : Finset Nat) :
    Except ResolveError EffectBranch :=
  if target_function_offsets = ∅ then .error .assertionFailed
  else if ∀ t ∈ target_function_offsets, t % 2 = 0 then
    .ok { conditional := conditional, target_function_offsets := target_function_offsets }
  else .error .assertionFailed

/-- `EffectCall` construction with its `__post_init__` asserts. -/
def mkEffectCall (target_addresses : Finset Nat) : Except ResolveError EffectCall :=
  if target_addresses = ∅ then .error .assertionFailed
  else if ∀ t ∈ target_addresses, t % 2 = 0 then
    .ok { target_addresses := target_addresses }
  else .error .assertionFailed

/-- The element-reading loop of the jump-table resolver: read successive
`load_size`-byte little-endian elements until the region ends (cursor `none`),
discarding zero elements (padding/sentinel) and collecting `element * 2`
(the `LSLS #1` of the pattern).  Fuel is the region length plus one; each read
advances the cursor, so this fuel is never exhausted (proved below). -/
def offset_table_read (load_size : Nat) :
    Nat → Option CursorFunctionRegionData → Finset Nat → Except ResolveError (Finset Nat)
  | _, none, acc => .ok acc
  | 0, some _, _ => .error .fuelExhausted
  | fuel + 1, some c, acc => do
    let vc ← c.read_unsigned load_size
    offset_table_read load_size fuel vc.2 (if vc.1 = 0 then acc else insert (vc.1 * 2) acc)

/-- `resolve_add_register_t2_pc_offset_table` (_program_counter_effect.py):
recognize the canonical jump-table epilogue
`ADD Rn, PC; LDR{B,H} Rn, [Rn, #4/size]; LSLS Rn, Rn, #1; ADD PC, Rn` followed
immediately by a data region of encoded half-offsets, and return the decoded
unconditional branch; `none` when the pattern does not match. -/
def resolve_add_register_t2_pc_offset_table (cur : CursorFunctionRegionInstructions) :
    Except ResolveError (Option EffectBranch) :=
  match cur.instruction? with
  | none => .error .invalidCursor
  | some ins =>
    match ins with
    | .addRegisterT2 dn m =>
      if dn ≠ Reg4.pc then .error .assertionFailed
      else
        match m.to_register3 with
        | none => .ok none
        | some register =>
          match cur.previous with
          | none => .ok none
          | some cur_lsls =>
            match cur_lsls.instruction? with
            | none => .error .invalidCursor
            | some ins_lsls =>
              match ins_lsls with
              | .lslImmediateT1 d m2 imm =>
                if d ≠ register then .ok none
                else if m2 ≠ register then .ok none
                else if imm ≠ 1 then .ok none
                else
                  match cur_lsls.previous with
                  | none => .ok none
                  | some cur_ldr =>
                    match cur_ldr.instruction? with
                    | none => .error .invalidCursor
                    | some ins_ldr =>
                      match ins_ldr.ldr_immediate? with
                      | none => .ok none
                      | some (t, n, imm2, load_size) =>
                        if t ≠ register then .ok none
                        else if n ≠ register then .ok none
                        else if imm2 * load_size ≠ 4 then .ok none
                        else
                          match cur_ldr.previous with
                          | none => .ok none
                          | some cur_add =>
                            match cur_add.instruction? with
                            | none => .error .invalidCursor
                            | some ins_add =>
                              match ins_add with
                              | .addRegisterT2 dn2 m3 =>
                                if dn2 ≠ Reg4.from_register3 register then .ok none
                                else if m3 ≠ Reg4.pc then .ok none
                                else
                                  match cur.function_end_offset? with
                                  | none => .error .invalidCursor
                                  | some end_offset =>
                                    match cur.function.region_data end_offset with
                                    | none => .ok none
                                    | some cdata =>
                                      if cdata.function_region_data_offset ≠ 0 then .ok none
                                      else do
                                        let targets ← offset_table_read load_size
                                          (((cdata.region?.map (fun p => p.2.length)).getD 0) + 1)
                                          (some cdata) ∅
                                        if targets = ∅ then .error .assertionFailed
                                        else
                                          match cur.function_offset? with
                                          | none => .error .invalidCursor
                                          | some instr_off =>
                                            (mkEffectBranch false
                                              (targets.image
                                                (fun t => instr_off + 4 + t))).map some
                              | _ => .ok none
              | _ => .ok none
    | _ => .error .assertionFailed

/-- `resolve_add_register_t2_pc`: collect the non-`None` results of the
resolvers (only the offset-table resolver exists) into a set; no result is the
user-facing unresolved error, several distinct results are `assert False`. -/
def resolve_add_register_t2_pc (cur : CursorFunctionRegionInstructions) :
    Except ResolveError EffectBranch := do
  let e1 ← resolve_add_register_t2_pc_offset_table cur
  match ([e1].filterMap id).dedup with
  | [] => .error .addRegisterT2PcUnknown
  | [e] => .ok e
  | _ => .error .assertionFailed

/-- `config.py:ConfigCallOverrides.targets_by_source`, as an association
list keyed by the calling instruction's absolute address. -/
structure ConfigCallOverrides where
  targets_by_source : List (Nat × Finset Nat)
deriving DecidableEq

/-- `resolve_call_config` (_program_counter_effect.py): the user-supplied
override table, looked up by the instruction's absolute address. -/
def resolve_call_config (config_call_overrides : ConfigCallOverrides)
    (cur : CursorFunctionRegionInstructions) : Except ResolveError (Option EffectCall) :=
  match cur.address? with
  | none => .error .invalidCursor
  | some addr =>
    match config_call_overrides.targets_by_source.lookup addr with
    | none => .ok none
    | some targets => (mkEffectCall targets).map some

/-- The backward walk of the BLX resolver: from the given cursor, walk
`previous()` until an instruction whose write set contains `m` is found
(`none` when the region start is passed).  Fuel bounds the walk by the start
index plus one; `previous` decreases the index, so the fuel suffices. -/
def blx_backward_search (m : Reg4) :
    Nat → Option CursorFunctionRegionInstructions →
    Except ResolveError (Option CursorFunctionRegionInstructions)
  | _, none => .ok none
  | 0, some _ => .error .fuelExhausted
  | fuel + 1, some c =>
    match c.instruction? with
    | none => .error .invalidCursor
    | some ins =>
      if m ∈ ins.affects_registers then .ok (some c)
      else blx_backward_search m fuel c.previous

/-- `resolve_blx_register_t1_pc_relative_load` (_program_counter_effect.py):
find the first earlier instruction writing the BLX register; if it is
`LDR (literal)`, load the 4-byte word at `ldr_offset + 4 + imm * 4`, require
the Thumb bit, clear it (`value & ~1 = value - 1` for odd values) and emit the
single-target call. -/
def resolve_blx_register_t1_pc_relative_load (cur : CursorFunctionRegionInstructions) :
    Except ResolveError (Option EffectCall) :=
  match cur.instruction? with
  | none => .error .invalidCursor
  | some ins =>
    match ins with
    | .blxRegisterT1 m =>
      match blx_backward_search m (cur.function_region_instructions_index + 1) cur.previous with
      | .error e => .error e
      | .ok none => .ok none
      | .ok (some cmod) =>
        match cmod.instruction? with
        | none => .error .invalidCursor
        | some insmod =>
          match insmod with
          | .ldrLiteralT1 t imm =>
            if Reg4.from_register3 t ≠ m then .error .assertionFailed
            else
              match cmod.function_offset? with
              | none => .error .invalidCursor
              | some ldr_off =>
                match cur.function.region_data (ldr_off + 4 + imm * 4) with
                | none => .ok none
                | some cdt => do
                  let va ← cdt.read_word_unsigned
                  if va.1 % 2 ≠ 1 then .error .thumbBitNotSet
                  else (mkEffectCall {va.1 - 1}).map some
          | _ => .ok none
    | _ => .error .assertionFailed

/-- `resolve_blx_register_t1` (_program_counter_effect.py): run the
PC-relative-literal resolver and the call-override resolver, collect the
non-`None` results into a set (equal effects are flattened), and match on its
size: no result is the user-facing unresolved error, one result is returned,
several distinct results are `assert False`. -/
def resolve_blx_register_t1 (cur : CursorFunctionRegionInstructions)
    (config_call_overrides : ConfigCallOverrides) : Except ResolveError EffectCall := do
  let e1 ← resolve_blx_register_t1_pc_relative_load cur
  let e2 ← resolve_call_config config_call_overrides cur
  match ([e1, e2].filterMap id).dedup with
  | [] => .error .blxUnknown
  | [e] => .ok e
  | _ => .error .assertionFailed

/-- C8: for every data cursor and read width in {1, 2, 4}: an unaligned
access fails; an access whose end would pass the region end fails; otherwise
the read returns the little-endian unsigned value of the next `width` bytes
together with the advanced cursor, with `none` in place of the cursor exactly
when the read ends at the region end. -/
theorem read_unsigned_spec (c : CursorFunctionRegionData) (w : Nat)
    (hw : w = 1 ∨ w = 2 ∨ w = 4)
    (region_offset : Nat) (data : List Nat)
    (hreg : c.region? = some (region_offset, data)) :
    (¬ (c.function.address + region_offset + c.function_region_data_offset) % w = 0 →
      c.read_unsigned w = .error .unalignedRead) ∧
    ((c.function.address + region_offset + c.function_region_data_offset) % w = 0 →
      (c.function_region_data_offset + w > data.length →
        c.read_unsigned w = .error .readOverflow) ∧
      (c.function_region_data_offset + w ≤ data.length →
        ∃ next, c.read_unsigned w =
            .ok (int_from_bytes_le ((data.drop c.function_region_data_offset).take w), next) ∧
          (next = none ↔ c.function_region_data_offset + w = data.length) ∧
          (∀ c2, next = some c2 → c2 = { c with
            function_region_data_offset := c.function_region_data_offset + w }))) := by
  have hbw : ¬ (w = 0 ∨ (w &&& (w - 1)) ≠ 0) := by
    rcases hw with rfl | rfl | rfl <;> decide
  have hunfold : c.read_unsigned w =
      (if w = 0 ∨ (w &&& (w - 1)) ≠ 0 then .error .badReadWidth
      else if (c.function.address + region_offset + c.function_region_data_offset) % w ≠ 0 then
        .error .unalignedRead
      else if c.function_region_data_offset + w > data.length then
        .error .readOverflow
      else
        .ok (int_from_bytes_le ((data.drop c.function_region_data_offset).take w),
          if c.function_region_data_offset + w < data.length then
            some { c with function_region_data_offset := c.function_region_data_offset + w }
          else none)) := by
    unfold CursorFunctionRegionData.read_unsigned
    rw [hreg]
  rw [hunfold, if_neg hbw]
  constructor
  · intro hal
    rw [if_pos hal]
  · intro hal
    rw [if_neg (by simpa using hal)]
    constructor
    · intro hov
      rw [if_pos hov]
    · intro hle
      rw [if_neg (by omega)]
      refine ⟨_, rfl, ?_, ?_⟩
      · by_cases hlt : c.function_region_data_offset + w < data.length
        · rw [if_pos hlt]
          constructor
          · intro h
            exact absurd h (by simp)
          · intro h
            omega
        · rw [if_neg hlt]
          constructor
          · intro _
            omega
          · intro _
            rfl
      · intro c2 h2
        by_cases hlt : c.function_region_data_offset + w < data.length
        · rw [if_pos hlt] at h2
          injection h2 with h2
          exact h2.symm
        · rw [if_neg hlt] at h2
          exact absurd h2 (by simp)

/-- Witness for C8: a 2-byte read of `34 12` at the start of a data region at
function offset 0 of a function at address `0x100` returns `0x1234` and the
`none` cursor (the read ends at the region end). -/
theorem read_unsigned_spec_witness :
    CursorFunctionRegionData.read_unsigned
      { function := { address := 0x100, regions := [.data 0 [0x34, 0x12]] },
        function_regions_index := 0, function_region_data_offset := 0 } 2 =
      .ok (0x1234, none) := by
  obtain ⟨next, hok, hiff, -⟩ :=
    ((read_unsigned_spec
      { function := { address := 0x100, regions := [.data 0 [0x34, 0x12]] },
        function_regions_index := 0, function_region_data_offset := 0 } 2
      (Or.inr (Or.inl rfl)) 0 [0x34, 0x12] rfl).2 (by decide)).2 (by decide)
  have hnone : next = none := hiff.mpr (by decide)
  rw [hnone] at hok
  exact hok

/-- A function containing `LDR R0, [PC, #0]; BLX R0` followed by the literal
pool word `0x00000201` (Thumb-bit-set pointer to `0x200`). -/
def blx_example_function : MFunction :=
  { address := 0x100
    regions := [.instrs 0 [.ldrLiteralT1 .r0 0, .blxRegisterT1 .r0],
                .data 4 [0x01, 0x02, 0x00, 0x00]] }

/-- Cursor at the `BLX R0` of `blx_example_function`. -/
def blx_example_cursor : CursorFunctionRegionInstructions :=
  { function := blx_example_function, function_regions_index := 0
    function_region_instructions_index := 1 }

/-- Counterexample to C4 as stated: at this `BLX`, the PC-relative-literal
resolver yields target set `{0x200}` and the user-supplied override table
yields `{0x300}`, yet the resolved call effect is not the union
`{0x200, 0x300}` — the resolver fails the `assert False` of
`resolve_blx_register_t1` (several distinct effects in the deduplicated
effect set). -/
theorem resolve_blx_union_counterexample :
    resolve_blx_register_t1_pc_relative_load blx_example_cursor =
      .ok (some { target_addresses := {0x200} }) ∧
    resolve_call_config { targets_by_source := [(0x102, {0x300})] } blx_example_cursor =
      .ok (some { target_addresses := {0x300} }) ∧
    resolve_blx_register_t1 blx_example_cursor
      { targets_by_source := [(0x102, {0x300})] } = .error .assertionFailed :=
  ⟨rfl, rfl, rfl⟩

/-- C4 amended: for every `BLX (register)` instruction, when both the
PC-relative-literal resolver and the call-override table yield a target set,
the resolved call effect is that common set if the two sets are equal (the
two equal effects are flattened at the set level); if the two sets differ the
resolver fails an internal assertion (`assert False`) instead of computing a
union.  When exactly one resolver yields a set, that set is the result; when
neither yields one, resolution fails with the user-facing error. -/
theorem resolve_blx_register_t1_spec (cur : CursorFunctionRegionInstructions)
    (cfg : ConfigCallOverrides) :
    (∀ s1 s2, resolve_blx_register_t1_pc_relative_load cur = .ok (some s1) →
      resolve_call_config cfg cur = .ok (some s2) →
      resolve_blx_register_t1 cur cfg =
        (if s1 = s2 then .ok s1 else .error .assertionFailed)) ∧
    (resolve_blx_register_t1_pc_relative_load cur = .ok none →
      resolve_call_config cfg cur = .ok none →
      resolve_blx_register_t1 cur cfg = .error .blxUnknown) ∧
    (∀ s1, resolve_blx_register_t1_pc_relative_load cur = .ok (some s1) →
      resolve_call_config cfg cur = .ok none →
      resolve_blx_register_t1 cur cfg = .ok s1) ∧
    (∀ s2, resolve_blx_register_t1_pc_relative_load cur = .ok none →
      resolve_call_config cfg cur = .ok (some s2) →
      resolve_blx_register_t1 cur cfg = .ok s2) := by
  refine ⟨?_, ?_, ?_, ?_⟩
  · intro s1 s2 h1 h2
    unfold resolve_blx_register_t1
    rw [h1, h2]
    by_cases hs : s1 = s2
    · subst hs
      rw [if_pos rfl]
      simp [bind, Except.bind, List.dedup_cons_of_mem, List.mem_dedup]
    · rw [if_neg hs]
      have hdd : ([s1, s2] : List EffectCall).dedup = [s1, s2] := by
        rw [List.dedup_cons_of_not_mem (by simpa using hs)]
        rfl
      simp [bind, Except.bind, hdd]
  · intro h1 h2
    unfold resolve_blx_register_t1
    rw [h1, h2]
    rfl
  · intro s1 h1 h2
    unfold resolve_blx_register_t1
    rw [h1, h2]
    rfl
  · intro s2 h1 h2
    unfold resolve_blx_register_t1
    rw [h1, h2]
    rfl

/-- Witness for the amended C4: with an override equal to the literal's
target set `{0x200}`, the two effects flatten and the `BLX` resolves to
`{0x200}`. -/
theorem resolve_blx_register_t1_spec_witness :
    resolve_blx_register_t1 blx_example_cursor
      { targets_by_source := [(0x102, {0x200})] } =
      .ok { target_addresses := ({0x200} : Finset Nat) } := by
  have h := (resolve_blx_register_t1_spec blx_example_cursor
    { targets_by_source := [(0x102, {0x200})] }).1
    { target_addresses := ({0x200} : Finset Nat) }
    { target_addresses := ({0x200} : Finset Nat) } rfl rfl
  rw [h, if_pos rfl]

/-! ### The jump-table data loop -/

/-- Helper for `table_elements`, with explicit fuel (one unit per element). -/
def table_elements_go (w : Nat) : Nat → List Nat → List Nat
  | _, [] => []
  | 0, _ :: _ => []
  | fuel + 1, bs => int_from_bytes_le (bs.take w) :: table_elements_go w fuel (bs.drop w)

/-- The successive `w`-byte little-endian elements of a byte region (the
mathematical contents of the jump table the resolver reads). -/
def table_elements (w : Nat) (bs : List Nat) : List Nat :=
  table_elements_go w bs.length bs

theorem table_elements_go_congr (w : Nat) (hw : 0 < w) :
    ∀ (fuel fuel' : Nat) (l : List Nat), l.length ≤ fuel → l.length ≤ fuel' →
      table_elements_go w fuel l = table_elements_go w fuel' l := by
  intro fuel
  induction fuel with
  | zero =>
    intro fuel' l hl _
    have : l = [] := List.length_eq_zero.mp (by omega)
    subst this
    cases fuel' <;> rfl
  | succ fuel ih =>
    intro fuel' l hl hl'
    cases l with
    | nil => cases fuel' <;> rfl
    | cons x xs =>
      cases fuel' with
      | zero => simp at hl'
      | succ fuel' =>
        show int_from_bytes_le ((x :: xs).take w) ::
            table_elements_go w fuel ((x :: xs).drop w) = _ :: table_elements_go w fuel' _
        have hlen : ((x :: xs).drop w).length ≤ fuel := by
          rw [List.length_drop, List.length_cons]
          simp only [List.length_cons] at hl
          omega
        have hlen' : ((x :: xs).drop w).length ≤ fuel' := by
          rw [List.length_drop, List.length_cons]
          simp only [List.length_cons] at hl'
          omega
        rw [ih fuel' _ hlen hlen']

theorem table_elements_cons (w : Nat) (hw : 0 < w) (bs : List Nat) (hne : bs ≠ []) :
    table_elements w bs = int_from_bytes_le (bs.take w) :: table_elements w (bs.drop w) := by
  cases bs with
  | nil => exact absurd rfl hne
  | cons x xs =>
    show table_elements_go w (xs.length + 1) (x :: xs) = _
    show int_from_bytes_le ((x :: xs).take w) :: table_elements_go w xs.length ((x :: xs).drop w)
      = _ :: table_elements w ((x :: xs).drop w)
    rw [table_elements_go_congr w hw xs.length ((x :: xs).drop w).length ((x :: xs).drop w)
      (by rw [List.length_drop]; simp; omega) (le_refl _)]
    rfl

/-- Unfolding of `read_unsigned` once the cursor's region is known. -/
theorem read_unsigned_unfold (c : CursorFunctionRegionData) (w region_offset : Nat)
    (data : List Nat) (hreg : c.region? = some (region_offset, data)) :
    c.read_unsigned w =
      (if w = 0 ∨ (w &&& (w - 1)) ≠ 0 then .error .badReadWidth
      else if (c.function.address + region_offset + c.function_region_data_offset) % w ≠ 0 then
        .error .unalignedRead
      else if c.function_region_data_offset + w > data.length then
        .error .readOverflow
      else
        .ok (int_from_bytes_le ((data.drop c.function_region_data_offset).take w),
          if c.function_region_data_offset + w < data.length then
            some { c with function_region_data_offset := c.function_region_data_offset + w }
          else none)) := by
  unfold CursorFunctionRegionData.read_unsigned
  rw [hreg]

/-- The jump-table reading loop consumes the rest of its region and collects
exactly the doubled non-zero elements. -/
theorem offset_table_read_ok (w : Nat) (hw : w = 1 ∨ w = 2 ∨ w = 4) :
    ∀ (fuel : Nat) (c : CursorFunctionRegionData) (ro : Nat) (bs : List Nat) (acc : Finset Nat),
      c.region? = some (ro, bs) →
      c.function_region_data_offset < bs.length →
      (c.function.address + ro + c.function_region_data_offset) % w = 0 →
      (bs.length - c.function_region_data_offset) % w = 0 →
      bs.length - c.function_region_data_offset ≤ fuel →
      offset_table_read w fuel (some c) acc =
        .ok (acc ∪ (((table_elements w (bs.drop c.function_region_data_offset)).filter
          (fun e => e ≠ 0)).map (fun e => e * 2)).toFinset) := by
  have hw0 : 0 < w := by rcases hw with rfl | rfl | rfl <;> omega
  have hbadw : ¬ (w = 0 ∨ (w &&& (w - 1)) ≠ 0) := by
    rcases hw with rfl | rfl | rfl <;> decide
  intro fuel
  induction fuel with
  | zero =>
    intro c ro bs acc _ hlt _ _ hfuel
    omega
  | succ fuel ih =>
    intro c ro bs acc hreg hlt hal hmod hfuel
    have hwdvd : w ≤ bs.length - c.function_region_data_offset := by
      rcases Nat.eq_zero_or_pos (bs.length - c.function_region_data_offset) with h0 | hpos
      · omega
      · by_contra hcon
        push_neg at hcon
        rw [Nat.mod_eq_of_lt hcon] at hmod
        omega
    have hnoov : ¬ c.function_region_data_offset + w > bs.length := by omega
    have hread : c.read_unsigned w =
        .ok (int_from_bytes_le ((bs.drop c.function_region_data_offset).take w),
          if c.function_region_data_offset + w < bs.length then
            some { c with function_region_data_offset := c.function_region_data_offset + w }
          else none) := by
      rw [read_unsigned_unfold c w ro bs hreg, if_neg hbadw, if_neg (by simpa using hal),
        if_neg hnoov]
    show (c.read_unsigned w).bind _ = _
    rw [hread]
    show offset_table_read w fuel
      (if c.function_region_data_offset + w < bs.length then
        some { c with function_region_data_offset := c.function_region_data_offset + w }
      else none)
      (if int_from_bytes_le ((bs.drop c.function_region_data_offset).take w) = 0 then acc
       else insert (int_from_bytes_le ((bs.drop c.function_region_data_offset).take w) * 2) acc)
      = _
    have htable : table_elements w (bs.drop c.function_region_data_offset) =
        int_from_bytes_le ((bs.drop c.function_region_data_offset).take w) ::
        table_elements w (bs.drop (c.function_region_data_offset + w)) := by
      rw [table_elements_cons w hw0 _ (by
        intro hcon
        have h0 : bs.length - c.function_region_data_offset = 0 := by
          have := congrArg List.length hcon
          simpa using this
        omega)]
      rw [List.drop_drop]
    by_cases hend : c.function_region_data_offset + w < bs.length
    · rw [if_pos hend]
      have hreg' : CursorFunctionRegionData.region?
          { c with function_region_data_offset := c.function_region_data_offset + w } =
          some (ro, bs) := hreg
      rw [ih { c with function_region_data_offset := c.function_region_data_offset + w }
        ro bs _ hreg' (by simpa using hend) (by
          show (c.function.address + ro + (c.function_region_data_offset + w)) % w = 0
          rw [← Nat.add_assoc, Nat.add_mod_right]
          exact hal)
        (by
          show (bs.length - (c.function_region_data_offset + w)) % w = 0
          obtain ⟨k, hk⟩ := Nat.dvd_of_mod_eq_zero hmod
          have hsub : bs.length - (c.function_region_data_offset + w) = w * (k - 1) := by
            cases k with
            | zero => omega
            | succ k2 =>
              rw [Nat.succ_sub_one]
              simp only [Nat.mul_succ] at hk
              omega
          rw [hsub]
          exact Nat.mul_mod_right w _)
        (by
          show bs.length - (c.function_region_data_offset + w) ≤ fuel
          omega)]
      rw [htable]
      by_cases hv : int_from_bytes_le ((bs.drop c.function_region_data_offset).take w) = 0
      · rw [if_pos hv]
        rw [List.filter_cons_of_neg (by simpa using hv)]
      · rw [if_neg hv]
        rw [List.filter_cons_of_pos (by simpa using hv), List.map_cons, List.toFinset_cons]
        rw [Finset.insert_union, Finset.union_insert]
    · rw [if_neg hend]
      have hlast : bs.drop (c.function_region_data_offset + w) = [] :=
        List.drop_eq_nil_of_le (by omega)
      rw [htable, hlast]
      have hstop : ∀ acc2 : Finset Nat, offset_table_read w fuel none acc2 = .ok acc2 := by
        intro acc2
        cases fuel <;> rfl
      rw [hstop]
      have hte : table_elements w ([] : List Nat) = [] := rfl
      rw [hte]
      by_cases hv : int_from_bytes_le ((bs.drop c.function_region_data_offset).take w) = 0
      · rw [if_pos hv, List.filter_cons_of_neg (by simpa using hv)]
        simp
      · rw [if_neg hv, List.filter_cons_of_pos (by simpa using hv)]
        rw [List.map_cons, List.toFinset_cons, Finset.union_insert]
        simp

theorem to_register3_from_register3 (r : Reg3) :
    (Reg4.from_register3 r).to_register3 = some r := by
  cases r <;> rfl

/-- An LDR-immediate load size is 1, 2 or 4 bytes. -/
theorem ldr_immediate_width {i : MInstr} {t n : Reg3} {imm w : Nat}
    (h : i.ldr_immediate? = some (t, n, imm, w)) : w = 1 ∨ w = 2 ∨ w = 4 := by
  cases i <;> simp [MInstr.ldr_immediate?] at h <;> omega

/-- A data cursor delivered by `region_data` points into its function. -/
theorem region_data_function {f : MFunction} {x : Nat} {c : CursorFunctionRegionData}
    (h : f.region_data x = some c) : c.function = f := by
  unfold MFunction.region_data at h
  dsimp only at h
  split at h
  · exact absurd h (by simp)
  · exact absurd h (by simp)
  · split at h
    · exact absurd h (by simp)
    · injection h with h
      rw [← h]

/-- A function containing the canonical jump-table epilogue over `R0`,
followed by the byte table `04 06 08 00` (the S3 scenario, with a trailing
zero padding byte). -/
def jt_example_function : MFunction :=
  { address := 0x100
    regions := [.instrs 0 [.addRegisterT2 .r0 .pc, .ldrbImmediateT1 .r0 .r0 4,
                           .lslImmediateT1 .r0 .r0 1, .addRegisterT2 .pc .r0],
                .data 8 [0x04, 0x06, 0x08, 0x00]] }

/-- Cursor at the `ADD PC, R0` of `jt_example_function`. -/
def jt_example_cursor : CursorFunctionRegionInstructions :=
  { function := jt_example_function, function_regions_index := 0
    function_region_instructions_index := 3 }

/-- The same function with an all-zero one-byte table. -/
def jt_zero_function : MFunction :=
  { address := 0x100
    regions := [.instrs 0 [.addRegisterT2 .r0 .pc, .ldrbImmediateT1 .r0 .r0 4,
                           .lslImmediateT1 .r0 .r0 1, .addRegisterT2 .pc .r0],
                .data 8 [0x00]] }

/-- Cursor at the `ADD PC, R0` of `jt_zero_function`. -/
def jt_zero_cursor : CursorFunctionRegionInstructions :=
  { function := jt_zero_function, function_regions_index := 0
    function_region_instructions_index := 3 }

/-- Counterexample to C6 as stated: this `ADD PC, R0` matches the canonical
pattern and its end offset starts a DATA region, yet the resolver produces no
branch at all — the table is all-zero, every element is discarded, and the
non-emptiness `assert` fails (Python `AssertionError`), so there is no
"resolved effect with a non-empty target set". -/
theorem resolve_offset_table_counterexample :
    resolve_add_register_t2_pc_offset_table jt_zero_cursor = .error .assertionFailed ∧
    ∀ b, resolve_add_register_t2_pc_offset_table jt_zero_cursor ≠ .ok (some b) := by
  refine ⟨rfl, ?_⟩
  intro b
  rw [show resolve_add_register_t2_pc_offset_table jt_zero_cursor =
    .error .assertionFailed from rfl]
  simp

/-- C6 amended: for every `ADD PC, Rn` whose preceding three instructions
match the canonical jump-table pattern and whose end offset starts a DATA
region, provided the region length is a multiple of the element width given
by the LDR variant, the element reads are aligned, and at least one table
element is non-zero, the resolved effect is an unconditional branch whose
target set is exactly `{ instr_offset + 4 + e * 2 : e a non-zero table
element }`, reading elements of the LDR variant's width until the region
ends, and this target set is non-empty; an all-zero table instead fails the
resolver's non-emptiness assertion (see the counterexample), and a region
length not a multiple of the width fails the final read.  A byte-wide table
with a trailing `0x00` padding byte yields the same non-zero element list —
hence the same target set — as one without it. -/
theorem resolve_offset_table_spec :
    (∀ (cur c1 c2 c3 : CursorFunctionRegionInstructions) (r : Reg3) (ildr : MInstr)
        (imm2 w eo dro off : Nat) (cdata : CursorFunctionRegionData) (bs : List Nat),
      cur.instruction? = some (.addRegisterT2 .pc (Reg4.from_register3 r)) →
      cur.previous = some c1 →
      c1.instruction? = some (.lslImmediateT1 r r 1) →
      c1.previous = some c2 →
      c2.instruction? = some ildr →
      ildr.ldr_immediate? = some (r, r, imm2, w) →
      imm2 * w = 4 →
      c2.previous = some c3 →
      c3.instruction? = some (.addRegisterT2 (Reg4.from_register3 r) .pc) →
      cur.function_end_offset? = some eo →
      cur.function.region_data eo = some cdata →
      cdata.function_region_data_offset = 0 →
      cdata.region? = some (dro, bs) →
      0 < bs.length →
      (cur.function.address + dro) % w = 0 →
      bs.length % w = 0 →
      (∃ e ∈ table_elements w bs, e ≠ 0) →
      cur.function_offset? = some off →
      off % 2 = 0 →
      resolve_add_register_t2_pc_offset_table cur =
        .ok (some { conditional := false
                    target_function_offsets :=
                      (((table_elements w bs).filter (fun e => e ≠ 0)).map
                        (fun e => off + 4 + e * 2)).toFinset }) ∧
      (((table_elements w bs).filter (fun e => e ≠ 0)).map
        (fun e => off + 4 + e * 2)).toFinset ≠ ∅) ∧
    (∀ bs : List Nat,
      (table_elements 1 (bs ++ [0])).filter (fun e => e ≠ 0) =
      (table_elements 1 bs).filter (fun e => e ≠ 0)) := by
  constructor
  · intro cur c1 c2 c3 r ildr imm2 w eo dro off cdata bs
    intro hins hp1 hlsl hp2 hldr hldri himm hp3 hadd heo hrd hcd0 hcdr hbs hal hlen hnz hoff hoff2
    have hw : w = 1 ∨ w = 2 ∨ w = 4 := ldr_immediate_width hldri
    have hcf : cdata.function = cur.function := region_data_function hrd
    have hfilter_ne : ((table_elements w bs).filter (fun e => e ≠ 0)) ≠ [] := by
      obtain ⟨e, hmem, hne⟩ := hnz
      intro hcon
      have : e ∈ (table_elements w bs).filter (fun e => decide (e ≠ 0)) :=
        List.mem_filter.mpr ⟨hmem, by simpa using hne⟩
      rw [hcon] at this
      simp at this
    have hS_ne : (((table_elements w bs).filter (fun e => e ≠ 0)).map
        (fun e => e * 2)).toFinset ≠ ∅ := by
      intro hcon
      rcases hfl : (table_elements w bs).filter (fun e => decide (e ≠ 0)) with _ | ⟨x, xs⟩
      · exact hfilter_ne hfl
      · rw [hfl] at hcon
        simp at hcon
    have hloop := offset_table_read_ok w hw (bs.length + 1) cdata dro bs ∅ hcdr
      (by rw [hcd0]; exact hbs)
      (by rw [hcd0, hcf, Nat.add_zero]; exact hal)
      (by rw [hcd0, Nat.sub_zero]; exact hlen)
      (by rw [hcd0]; omega)
    rw [hcd0, List.drop_zero] at hloop
    have himg : (((table_elements w bs).filter (fun e => e ≠ 0)).map
        (fun e => e * 2)).toFinset.image (fun t => off + 4 + t) =
        (((table_elements w bs).filter (fun e => e ≠ 0)).map
          (fun e => off + 4 + e * 2)).toFinset := by
      ext a
      simp only [Finset.mem_image, List.mem_toFinset, List.mem_map]
      constructor
      · rintro ⟨t, ⟨e, he, rfl⟩, rfl⟩
        exact ⟨e, he, rfl⟩
      · rintro ⟨e, he, rfl⟩
        exact ⟨e * 2, ⟨e, he, rfl⟩, rfl⟩
    constructor
    · unfold resolve_add_register_t2_pc_offset_table
      simp only [hins, hp1, hlsl, hp2, hldr, hldri, hp3, hadd, heo, hrd, hoff, hcdr, hcd0,
        himm, to_register3_from_register3]
      have hT_ne : (((table_elements w bs).filter (fun e => e ≠ 0)).map
          (fun e => off + 4 + e * 2)).toFinset ≠ ∅ := by
        rw [← himg]
        intro hcon
        rw [Finset.image_eq_empty] at hcon
        exact hS_ne hcon
      have hT_even : ∀ t ∈ (((table_elements w bs).filter (fun e => e ≠ 0)).map
          (fun e => off + 4 + e * 2)).toFinset, t % 2 = 0 := by
        intro t ht
        rw [List.mem_toFinset, List.mem_map] at ht
        obtain ⟨e, -, rfl⟩ := ht
        omega
      simp only [ne_eq, eq_self_iff_true, not_true, if_false, Option.map_some',
        Option.getD_some]
      rw [hloop]
      simp only [bind, Except.bind, Finset.empty_union]
      rw [if_neg hS_ne, himg]
      unfold mkEffectBranch
      rw [if_neg hT_ne, if_pos hT_even]
      rfl
    · rw [← himg]
      intro hcon
      rw [Finset.image_eq_empty] at hcon
      exact hS_ne hcon
  · intro bs
    have h1 : ∀ l : List Nat, table_elements 1 l = l := by
      intro l
      induction l with
      | nil => rfl
      | cons x xs ih =>
        rw [table_elements_cons 1 (by omega) _ (by simp)]
        show int_from_bytes_le [x] :: table_elements 1 xs = x :: xs
        rw [ih]
        show (x + 256 * 0) :: xs = x :: xs
        rw [Nat.mul_zero, Nat.add_zero]
    rw [h1, h1, List.filter_append]
    show _ ++ List.filter (fun e => decide (e ≠ 0)) [0] = _
    simp

/-- Witness for the amended C6: on the concrete jump-table example (byte table
`04 06 08 00` after the `ADD PC, R0` at offset 6) the resolver yields the
unconditional branch to offsets `{18, 22, 26}`, a non-empty set. -/
theorem resolve_offset_table_spec_witness :
    resolve_add_register_t2_pc_offset_table jt_example_cursor =
      .ok (some { conditional := false
                  target_function_offsets := ({18, 22, 26} : Finset Nat) }) ∧
    ({18, 22, 26} : Finset Nat) ≠ ∅ := by
  have h := resolve_offset_table_spec.1 jt_example_cursor
    ⟨jt_example_function, 0, 2⟩ ⟨jt_example_function, 0, 1⟩ ⟨jt_example_function, 0, 0⟩
    .r0 (.ldrbImmediateT1 .r0 .r0 4) 4 1 8 8 6 ⟨jt_example_function, 1, 0⟩ [4, 6, 8, 0]
    rfl rfl rfl rfl rfl rfl rfl rfl rfl rfl rfl rfl rfl (by decide) (by decide) (by decide)
    (by decide) rfl (by decide)
  have he : (((table_elements 1 [4, 6, 8, 0]).filter (fun e => e ≠ 0)).map
      (fun e => 6 + 4 + e * 2)).toFinset = ({18, 22, 26} : Finset Nat) := by decide
  exact ⟨he ▸ h.1, he ▸ h.2⟩

/-! ### s06_functions_effect: per-function stack-grow analysis

(`functions/s06_functions_effect/parse.py`.)  The s05 `FunctionInstruction`
is reduced to the fields the analyzer reads; the `function_offsets_next` /
`function_offsets_previous` adjacency maps of `FunctionInstructions`
(s05 `model.py`) become list-valued functions over the instruction list, and
the two `while True:` searches become fueled recursions (fuel `l.length + 1`,
shown sufficient below).  Python sets of offsets are `Nodup` lists; `dict`
iteration order is instruction order.  `AssertionError` and `ValueError`
are `S06Error` values. -/

/-- s05 `FunctionInstruction` restricted to the fields used by s06:
`function_offsets_next = none` marks a returning instruction. -/
structure FunctionInstruction where
  function_offset : Nat
  function_offsets_next : Option (List Nat)
  call_addresses : List Nat
  stack_grow : Int
deriving DecidableEq, Repr

/-- The offsets of a function's instructions (`by_function_offset.keys()`). -/
def offsetsOf (l : List FunctionInstruction) : List Nat :=
  l.map (fun i => i.function_offset)

/-- `by_function_offset[off]`: the (first) instruction at the offset —
unique when offsets are distinct, as `FunctionInstructions` asserts. -/
def instrAt (l : List FunctionInstruction) (off : Nat) : Option FunctionInstruction :=
  l.find? (fun i => decide (i.function_offset = off))

/-- `function_offsets_next.get(off, set())`: successor offsets, empty when
the instruction returns (`None`), has no successors, or the offset is
unknown. -/
def nextsOf (l : List FunctionInstruction) (off : Nat) : List Nat :=
  ((instrAt l off).bind (fun i => i.function_offsets_next)).getD []

/-- `function_offsets_previous.get(off, set())`: the offsets of the
instructions listing `off` among their successors. -/
def prevsOf (l : List FunctionInstruction) (off : Nat) : List Nat :=
  (l.filter (fun i => decide (off ∈ i.function_offsets_next.getD []))).map
    (fun i => i.function_offset)

/-- Failure modes of `resolve_function_stack_grow` and its walks:
`walk…`/`assert…` are Python `assert` statements (`AssertionError`),
the rest are the `raise ValueError(...)` diagnostics. -/
inductive S06Error
  | walkMissingInstruction
  | walkFuelExhausted
  | walkAssertRevisited
  | assertReturnsMismatch
  | divergentReturnPaths
  | assertReturnWalksOverlap
  | stackNotReturnedToZero
  | coverageIncomplete
  | stackNotAligned
deriving DecidableEq, Repr

/-- The `while True:` loop of
`resolve_function_stack_grow_function_offsets_entry`: walk forward from the
entry while every visited offset has exactly one incoming edge (zero for
offset 0), stopping at calls, stack-shrinking instructions and branch
points, accumulating the stack grow and the visited offsets. -/
def entry_walk_go (l : List FunctionInstruction) :
    Nat → Nat → Int → List Nat → Except S06Error (Int × List Nat)
  | 0, _, _, _ => .error .walkFuelExhausted
  | fuel + 1, off, sg, visited =>
    if (if off = 0 then (prevsOf l off).length ≠ 0 else (prevsOf l off).length ≠ 1) then
      .ok (sg, visited)
    else
      match instrAt l off with
      | none => .error .walkMissingInstruction
      | some ins =>
        if ins.call_addresses ≠ [] then .ok (sg, visited)
        else if ins.stack_grow < 0 then .ok (sg, visited)
        else if off ∈ visited then .error .walkAssertRevisited
        else
          match nextsOf l off with
          | [next] => entry_walk_go l fuel next (sg + ins.stack_grow) (visited ++ [off])
          | _ => .ok (sg + ins.stack_grow, visited ++ [off])

/-- `resolve_function_stack_grow_function_offsets_entry`. -/
def resolve_function_stack_grow_function_offsets_entry (l : List FunctionInstruction) :
    Except S06Error (Int × List Nat) :=
  entry_walk_go l (l.length + 1) 0 0 []

/-- The inner `while True:` loop of
`resolve_function_stack_grow_function_offsets_return`: walk backward from a
returning instruction while every visited offset has exactly one outgoing
edge (zero for the return itself), stopping at calls, stack-growing
instructions and join points. -/
def return_walk_go (l : List FunctionInstruction) (ret : Nat) :
    Nat → Nat → Int → List Nat → Except S06Error (Int × List Nat)
  | 0, _, _, _ => .error .walkFuelExhausted
  | fuel + 1, off, sg, visited =>
    if (if off = ret then (nextsOf l off).length ≠ 0 else (nextsOf l off).length ≠ 1) then
      .ok (sg, visited)
    else
      match instrAt l off with
      | none => .error .walkMissingInstruction
      | some ins =>
        if ins.call_addresses ≠ [] then .ok (sg, visited)
        else if 0 < ins.stack_grow then .ok (sg, visited)
        else if off ∈ visited then .error .walkAssertRevisited
        else
          match prevsOf l off with
          | [prev] => return_walk_go l ret fuel prev (sg + ins.stack_grow) (visited ++ [off])
          | _ => .ok (sg + ins.stack_grow, visited ++ [off])

/-- One return-side walk, from the returning instruction at `ret`. -/
def return_walk (l : List FunctionInstruction) (ret : Nat) :
    Except S06Error (Int × List Nat) :=
  return_walk_go l ret (l.length + 1) ret 0 []

/-- The offsets of the returning instructions (`function_offsets_next is
None`), in instruction order — the keys of the
`function_offsets_return_stack_grow_function_offsets` dict. -/
def returns_list (l : List FunctionInstruction) : List Nat :=
  (l.filter (fun i => i.function_offsets_next.isNone)).map (fun i => i.function_offset)

/-- The dict comprehension running one return walk per returning
instruction; a failing walk propagates its exception. -/
def walk_returns (l : List FunctionInstruction) :
    List Nat → Except S06Error (List (Int × List Nat))
  | [] => .ok []
  | r :: rs =>
    (return_walk l r).bind (fun p =>
      (walk_returns l rs).bind (fun ps => .ok (p :: ps)))

/-- The combining loop over the return walks' offset sets:
`assert function_offsets_.isdisjoint(function_offsets)` then
`function_offsets.update(function_offsets_)`. -/
def union_disjoint_fold :
    List Nat → List (List Nat) → Except S06Error (List Nat)
  | acc, [] => .ok acc
  | acc, os :: rest =>
    if os.any (fun o => decide (o ∈ acc)) then .error .assertReturnWalksOverlap
    else union_disjoint_fold (acc ++ os) rest

/-- `resolve_function_stack_grow_function_offsets_returns`: `none` when the
function has no returning instruction; otherwise all return walks must agree
on the stack grow (`list({...})` singleton match, else the differing-sizes
`ValueError`) and their offset sets are combined under the disjointness
assert. -/
def resolve_function_stack_grow_function_offsets_returns (l : List FunctionInstruction) :
    Except S06Error (Option (Int × List Nat)) :=
  (walk_returns l (returns_list l)).bind (fun results =>
    if results = [] then .ok none
    else
      match (results.map Prod.fst).dedup with
      | [g] =>
        (union_disjoint_fold [] (results.map Prod.snd)).bind (fun offs =>
          .ok (some (g, offs)))
      | _ => .error .divergentReturnPaths)

/-- s05 `Function.returns`: some instruction has `function_offsets_next is
None`. -/
def returnsB (l : List FunctionInstruction) : Bool :=
  l.any (fun i => i.function_offsets_next.isNone)

/-- The tail of `resolve_function_stack_grow` after the return-side checks:
the traversed offsets must cover every stack-affecting instruction, and the
entry grow must be word-aligned; then the entry grow is returned. -/
def s06_finish (l : List FunctionInstruction) (entry_sg : Int) (traversed : List Nat) :
    Except S06Error Int :=
  if ((l.filter (fun i => decide (i.stack_grow ≠ 0))).map (fun i => i.function_offset)).all
      (fun o => decide (o ∈ traversed)) then
    if entry_sg % 4 = 0 then .ok entry_sg else .error .stackNotAligned
  else .error .coverageIncomplete

/-- `resolve_function_stack_grow`: entry walk, return walks, the
`(returns is None) == (not returns)` assert, the returned-to-zero check
(skipped for non-returning functions), then coverage and alignment. -/
def resolve_function_stack_grow (l : List FunctionInstruction) : Except S06Error Int :=
  (resolve_function_stack_grow_function_offsets_entry l).bind (fun pe =>
    (resolve_function_stack_grow_function_offsets_returns l).bind (fun ro =>
      if ro.isNone = (! returnsB l) then
        match ro with
        | some rp =>
          if pe.1 ≠ -rp.1 then .error .stackNotReturnedToZero
          else s06_finish l pe.1 (pe.2 ++ rp.2)
        | none => s06_finish l pe.1 pe.2
      else .error .assertReturnsMismatch))

/-- The invariants `FunctionInstructions.__post_init__` asserts and s06
relies on: distinct offsets, an instruction at offset 0, edges pointing at
instructions, and duplicate-free successor lists (they stand for sets). -/
def WFInstr (l : List FunctionInstruction) : Prop :=
  (offsetsOf l).Nodup ∧
  0 ∈ offsetsOf l ∧
  (∀ i ∈ l, ∀ n ∈ i.function_offsets_next.getD [], n ∈ offsetsOf l) ∧
  (∀ i ∈ l, (i.function_offsets_next.getD []).Nodup)

/-- A five-instruction function: PUSH-like grow 4 at 0, SUB-SP grow 8 at 2,
a neutral instruction at 4, ADD-SP shrink 8 at 6 and a returning POP-like
shrink 4 at 8. -/
def s06_example : List FunctionInstruction :=
  [{ function_offset := 0, function_offsets_next := some [2], call_addresses := [],
     stack_grow := 4 },
   { function_offset := 2, function_offsets_next := some [4], call_addresses := [],
     stack_grow := 8 },
   { function_offset := 4, function_offsets_next := some [6], call_addresses := [],
     stack_grow := 0 },
   { function_offset := 6, function_offsets_next := some [8], call_addresses := [],
     stack_grow := -8 },
   { function_offset := 8, function_offsets_next := none, call_addresses := [],
     stack_grow := -4 }]

/-- Step equation of the entry walk at positive fuel. -/
lemma entry_walk_go_succ (l : List FunctionInstruction) (fuel off : Nat) (sg : Int)
    (visited : List Nat) :
    entry_walk_go l (fuel + 1) off sg visited =
      if (if off = 0 then (prevsOf l off).length ≠ 0 else (prevsOf l off).length ≠ 1) then
        .ok (sg, visited)
      else
        match instrAt l off with
        | none => .error .walkMissingInstruction
        | some ins =>
          if ins.call_addresses ≠ [] then .ok (sg, visited)
          else if ins.stack_grow < 0 then .ok (sg, visited)
          else if off ∈ visited then .error .walkAssertRevisited
          else
            match nextsOf l off with
            | [next] => entry_walk_go l fuel next (sg + ins.stack_grow) (visited ++ [off])
            | _ => .ok (sg + ins.stack_grow, visited ++ [off]) := rfl

/-- Step equation of the return walk at positive fuel. -/
lemma return_walk_go_succ (l : List FunctionInstruction) (ret fuel off : Nat) (sg : Int)
    (visited : List Nat) :
    return_walk_go l ret (fuel + 1) off sg visited =
      if (if off = ret then (nextsOf l off).length ≠ 0 else (nextsOf l off).length ≠ 1) then
        .ok (sg, visited)
      else
        match instrAt l off with
        | none => .error .walkMissingInstruction
        | some ins =>
          if ins.call_addresses ≠ [] then .ok (sg, visited)
          else if 0 < ins.stack_grow then .ok (sg, visited)
          else if off ∈ visited then .error .walkAssertRevisited
          else
            match prevsOf l off with
            | [prev] => return_walk_go l ret fuel prev (sg + ins.stack_grow) (visited ++ [off])
            | _ => .ok (sg + ins.stack_grow, visited ++ [off]) := rfl

/-- An offset present among the instruction offsets has an instruction. -/
lemma instrAt_of_mem_offsets {l : List FunctionInstruction} {off : Nat}
    (h : off ∈ offsetsOf l) :
    ∃ i, instrAt l off = some i ∧ i ∈ l ∧ i.function_offset = off := by
  rw [offsetsOf, List.mem_map] at h
  obtain ⟨j, hj, hoff⟩ := h
  have hsome : (l.find? (fun i => decide (i.function_offset = off))).isSome := by
    rw [List.find?_isSome]
    exact ⟨j, hj, by simpa using hoff⟩
  obtain ⟨i, hi⟩ := Option.isSome_iff_exists.mp hsome
  refine ⟨i, hi, List.mem_of_find?_eq_some hi, ?_⟩
  have := List.find?_some hi
  simpa using this

/-- `instrAt` finds a member of the list at the queried offset. -/
lemma instrAt_mem {l : List FunctionInstruction} {off : Nat} {i : FunctionInstruction}
    (h : instrAt l off = some i) : i ∈ l ∧ i.function_offset = off :=
  ⟨List.mem_of_find?_eq_some h, by simpa using List.find?_some h⟩

/-- With distinct offsets, `instrAt` recovers exactly the member at its
offset. -/
lemma instrAt_eq_of_mem {l : List FunctionInstruction} (hnd : (offsetsOf l).Nodup)
    {i : FunctionInstruction} (hi : i ∈ l) : instrAt l i.function_offset = some i := by
  induction l with
  | nil => cases hi
  | cons a t ih =>
    rw [offsetsOf, List.map_cons, List.nodup_cons] at hnd
    obtain ⟨hna, hnt⟩ := hnd
    rcases List.mem_cons.mp hi with rfl | hi'
    · rw [instrAt, List.find?_cons_of_pos _ (by simp)]
    · have hne : ¬ a.function_offset = i.function_offset := by
        intro he
        exact hna (he ▸ List.mem_map_of_mem (fun j => j.function_offset) hi')
      rw [instrAt, List.find?_cons_of_neg _ (by simpa using hne)]
      exact ih hnt hi'

/-- `nextsOf` through a found instruction. -/
lemma nextsOf_eq {l : List FunctionInstruction} {off : Nat} {i : FunctionInstruction}
    (h : instrAt l off = some i) : nextsOf l off = i.function_offsets_next.getD [] := by
  rw [nextsOf, h]
  rfl

/-- Membership in `prevsOf` unpacked. -/
lemma mem_prevsOf {l : List FunctionInstruction} {p off : Nat} :
    p ∈ prevsOf l off ↔
      ∃ i ∈ l, i.function_offset = p ∧ off ∈ i.function_offsets_next.getD [] := by
  rw [prevsOf]
  simp only [List.mem_map, List.mem_filter, decide_eq_true_eq]
  constructor
  · rintro ⟨i, ⟨hil, hoffm⟩, rfl⟩
    exact ⟨i, hil, rfl, hoffm⟩
  · rintro ⟨i, hil, rfl, hoffm⟩
    exact ⟨i, ⟨hil, hoffm⟩, rfl⟩

/-- Predecessor offsets are instruction offsets. -/
lemma prevsOf_sub_offsets {l : List FunctionInstruction} {p off : Nat}
    (h : p ∈ prevsOf l off) : p ∈ offsetsOf l := by
  obtain ⟨i, hil, rfl, -⟩ := mem_prevsOf.mp h
  exact List.mem_map_of_mem (fun j => j.function_offset) hil

/-- A successor edge yields the corresponding predecessor edge. -/
lemma mem_nexts_to_prevs {l : List FunctionInstruction} {w c : Nat}
    (h : c ∈ nextsOf l w) : w ∈ prevsOf l c := by
  cases hfind : instrAt l w with
  | none => rw [nextsOf, hfind] at h; cases h
  | some i =>
    obtain ⟨hil, hoff⟩ := instrAt_mem hfind
    refine mem_prevsOf.mpr ⟨i, hil, hoff, ?_⟩
    rw [nextsOf_eq hfind] at h
    exact h

/-- With distinct offsets, a predecessor edge yields the successor edge. -/
lemma mem_prevs_to_nexts {l : List FunctionInstruction} (hnd : (offsetsOf l).Nodup)
    {p off : Nat} (h : p ∈ prevsOf l off) : off ∈ nextsOf l p := by
  obtain ⟨i, hil, hoffeq, hmem⟩ := mem_prevsOf.mp h
  have hfind : instrAt l p = some i := hoffeq ▸ instrAt_eq_of_mem hnd hil
  rw [nextsOf_eq hfind]
  exact hmem

/-- A length-one list containing `a` is `[a]`. -/
lemma eq_singleton_of_length_one_of_mem {xs : List Nat} {a : Nat}
    (hl : xs.length = 1) (ha : a ∈ xs) : xs = [a] := by
  obtain ⟨b, rfl⟩ := List.length_eq_one.mp hl
  rw [List.mem_singleton] at ha
  rw [ha]

/-- A duplicate-free list of members of `ys` is no longer than `ys`. -/
lemma nodup_sub_length_le {xs ys : List Nat} (hnd : xs.Nodup) (h : ∀ o ∈ xs, o ∈ ys) :
    xs.length ≤ ys.length :=
  calc xs.length = xs.toFinset.card := (List.toFinset_card_of_nodup hnd).symm
    _ ≤ ys.toFinset.card := Finset.card_le_card (fun a ha =>
        List.mem_toFinset.mpr (h a (List.mem_toFinset.mp ha)))
    _ ≤ ys.length := ys.toFinset_card_le

/-- Freshness of the walks' current offset: on a duplicate-free visited list
whose head has no `P`-edge, whose consecutive entries are linked by unique
`P`-edges, and whose last entry is a `P`-edge of the current offset, the
current offset is unvisited — the reason the revisit `assert` cannot fire. -/
lemma chain_fresh (P : Nat → List Nat) (visited : List Nat) (off : Nat)
    (hnd : visited.Nodup)
    (hch : List.Chain' (fun a b => P b = [a]) visited)
    (hhd : ∀ h0, visited.head? = some h0 → P h0 = [])
    (hlast : ∀ w, visited.getLast? = some w → w ∈ P off) :
    off ∉ visited := by
  intro hmem
  cases visited with
  | nil => cases hmem
  | cons v t =>
    have hP0 : P v = [] := hhd v rfl
    have hglast : (v :: t).getLast? = some ((v :: t).getLast (by simp)) :=
      List.getLast?_eq_getLast _ (by simp)
    have hwP := hlast _ hglast
    obtain ⟨⟨i, hi⟩, hget⟩ := List.mem_iff_get.mp hmem
    cases i with
    | zero =>
      have hv : v = off := hget
      rw [← hv, hP0] at hwP
      cases hwP
    | succ j =>
      have hchain := List.chain'_iff_get.mp hch j (by
        simp only [List.length_cons] at hi ⊢
        omega)
      rw [hget] at hchain
      rw [hchain] at hwP
      rw [List.mem_singleton] at hwP
      have hlen : (v :: t).length - 1 < (v :: t).length := by simp
      have hlast_get : (v :: t).getLast (by simp) = (v :: t).get ⟨(v :: t).length - 1, hlen⟩ :=
        List.getLast_eq_get _ _
      rw [hlast_get] at hwP
      have hfin := (List.Nodup.get_inj_iff hnd).mp hwP.symm
      have hj : j = (v :: t).length - 1 := congrArg Fin.val hfin
      simp only [List.length_cons] at hj hi
      omega

/-- Every entry of a visited list whose consecutive entries are linked by
unique forward edges reaches the head by iterating the edges. -/
lemma chain_reach (f : Nat → List Nat) :
    ∀ (vis : List Nat) (h0 : Nat), List.Chain' (fun a b => f b = [a]) vis →
      vis.head? = some h0 → ∀ o ∈ vis,
        Relation.ReflTransGen (fun x y => f x = [y]) o h0 := by
  intro vis
  induction vis with
  | nil => intro h0 _ hh; cases hh
  | cons v rest ih =>
    intro h0 hch hh o ho
    have hv : v = h0 := by
      injection hh
    rcases List.mem_cons.mp ho with rfl | ho'
    · exact hv ▸ Relation.ReflTransGen.refl
    · cases rest with
      | nil => cases ho'
      | cons w t =>
        rw [List.chain'_cons] at hch
        have hstep : (fun x y => f x = [y]) w v := hch.1
        have hreach := ih w hch.2 rfl o ho'
        exact hv ▸ Relation.ReflTransGen.tail hreach hstep

/-- The forward edge relation is deterministic, so a path can reach at most
one sink (offset with no outgoing edge). -/
lemma rtg_det_sink (f : Nat → List Nat) (b b' : Nat) (hb : f b = []) (hb' : f b' = []) :
    ∀ a, Relation.ReflTransGen (fun x y => f x = [y]) a b →
      Relation.ReflTransGen (fun x y => f x = [y]) a b' → b = b' := by
  intro a h
  induction h using Relation.ReflTransGen.head_induction_on with
  | refl =>
    intro h2
    rcases h2.cases_head with rfl | ⟨c, hc, -⟩
    · rfl
    · rw [hb] at hc
      cases hc
  | @head x c hxc hcb ih =>
    intro h2
    rcases h2.cases_head with rfl | ⟨c', hc', h3⟩
    · rw [hb'] at hxc
      cases hxc
    · have hcc : c = c' := by
        have h4 := hxc.symm.trans hc'
        injection h4
      exact ih (hcc ▸ h3)

/-- The entry walk never raises: with valid edges, from any state satisfying
the walk invariant (duplicate-free visited chain of unique-predecessor
offsets ending in a predecessor of the current offset) and enough fuel, it
returns a sum and a duplicate-free visited list. -/
lemma entry_walk_go_ok (l : List FunctionInstruction)
    (hedges : ∀ i ∈ l, ∀ n ∈ i.function_offsets_next.getD [], n ∈ offsetsOf l) :
    ∀ (fuel off : Nat) (sg : Int) (visited : List Nat),
      l.length < visited.length + fuel →
      off ∈ offsetsOf l →
      visited.Nodup →
      (∀ o ∈ visited, o ∈ offsetsOf l) →
      List.Chain' (fun a b => prevsOf l b = [a]) visited →
      (∀ h0, visited.head? = some h0 → prevsOf l h0 = []) →
      (∀ w, visited.getLast? = some w → w ∈ prevsOf l off) →
      (visited = [] → off = 0) →
      ∃ sg' vis', entry_walk_go l fuel off sg visited = .ok (sg', vis') ∧ vis'.Nodup := by
  intro fuel
  induction fuel with
  | zero =>
    intro off sg visited hlen _ hnd hsub _ _ _ _
    have hle := nodup_sub_length_le hnd hsub
    rw [offsetsOf, List.length_map] at hle
    omega
  | succ fuel ih =>
    intro off sg visited hlen hoffmem hnd hsub hch hhd hlast hemp
    rw [entry_walk_go_succ]
    by_cases hbrk : (if off = 0 then (prevsOf l off).length ≠ 0
        else (prevsOf l off).length ≠ 1)
    · rw [if_pos hbrk]
      exact ⟨sg, visited, rfl, hnd⟩
    · rw [if_neg hbrk]
      obtain ⟨ins, hins, hinsl, hinsoff⟩ := instrAt_of_mem_offsets hoffmem
      simp only [hins]
      by_cases hcall : ins.call_addresses ≠ []
      · rw [if_pos hcall]
        exact ⟨sg, visited, rfl, hnd⟩
      · rw [if_neg hcall]
        by_cases hneg : ins.stack_grow < 0
        · rw [if_pos hneg]
          exact ⟨sg, visited, rfl, hnd⟩
        · rw [if_neg hneg]
          have hfresh : off ∉ visited := chain_fresh (prevsOf l) visited off hnd hch hhd hlast
          rw [if_neg hfresh]
          have hnd' : (visited ++ [off]).Nodup := by
            rw [List.nodup_append]
            refine ⟨hnd, List.nodup_singleton off, ?_⟩
            intro a ha hb
            rw [List.mem_singleton] at hb
            exact hfresh (hb ▸ ha)
          have hsub' : ∀ o ∈ visited ++ [off], o ∈ offsetsOf l := by
            intro o ho
            rcases List.mem_append.mp ho with h1 | h2
            · exact hsub o h1
            · rw [List.mem_singleton] at h2
              exact h2 ▸ hoffmem
          have hprevlink : ∀ w, visited.getLast? = some w → prevsOf l off = [w] := by
            intro w hw
            have hwmem := hlast w hw
            by_cases hoff0 : off = 0
            · rw [if_pos hoff0] at hbrk
              push_neg at hbrk
              rw [List.length_eq_zero] at hbrk
              rw [hbrk] at hwmem
              cases hwmem
            · rw [if_neg hoff0] at hbrk
              push_neg at hbrk
              exact eq_singleton_of_length_one_of_mem hbrk hwmem
          have hch' : List.Chain' (fun a b => prevsOf l b = [a]) (visited ++ [off]) := by
            rw [List.chain'_append]
            refine ⟨hch, List.chain'_singleton off, ?_⟩
            intro x hx y hy
            rw [List.head?_cons, Option.mem_some_iff] at hy
            exact hy ▸ hprevlink x (Option.mem_def.mp hx)
          have hhd' : ∀ h0, (visited ++ [off]).head? = some h0 → prevsOf l h0 = [] := by
            intro h0 hh0
            cases visited with
            | nil =>
              rw [List.nil_append, List.head?_cons, Option.some.injEq] at hh0
              have hoff0 := hemp rfl
              rw [if_pos hoff0] at hbrk
              push_neg at hbrk
              rw [List.length_eq_zero] at hbrk
              rw [← hh0]
              exact hbrk
            | cons v t =>
              rw [List.cons_append, List.head?_cons, Option.some.injEq] at hh0
              exact hh0 ▸ hhd v rfl
          rcases hn : nextsOf l off with _ | ⟨n1, ns⟩
          · simp only
            exact ⟨sg + ins.stack_grow, visited ++ [off], rfl, hnd'⟩
          · rcases ns with _ | ⟨n2, ns2⟩
            · simp only
              have hn1off : n1 ∈ offsetsOf l := by
                refine hedges ins hinsl n1 ?_
                rw [← nextsOf_eq hins, hn]
                exact List.mem_singleton.mpr rfl
              refine ih n1 (sg + ins.stack_grow) (visited ++ [off]) ?_ hn1off hnd' hsub'
                hch' hhd' ?_ ?_
              · rw [List.length_append, List.length_singleton]
                omega
              · intro w hw
                rw [List.getLast?_concat, Option.some.injEq] at hw
                refine hw ▸ mem_nexts_to_prevs ?_
                rw [hn]
                exact List.mem_singleton.mpr rfl
              · intro hcon
                exact absurd hcon (by simp)
            · simp only
              exact ⟨sg + ins.stack_grow, visited ++ [off], rfl, hnd'⟩

/-- The return walk never raises: with distinct offsets, from any state
satisfying the walk invariant (duplicate-free visited chain of
unique-successor offsets headed by the returning offset `ret` and ending in
a successor of the current offset) and enough fuel, it returns a sum and a
duplicate-free visited list that is a unique-successor chain headed by
`ret`. -/
lemma return_walk_go_ok (l : List FunctionInstruction)
    (hndoff : (offsetsOf l).Nodup) (ret : Nat) (hretsink : nextsOf l ret = []) :
    ∀ (fuel off : Nat) (sg : Int) (visited : List Nat),
      l.length < visited.length + fuel →
      off ∈ offsetsOf l →
      visited.Nodup →
      (∀ o ∈ visited, o ∈ offsetsOf l) →
      List.Chain' (fun a b => nextsOf l b = [a]) visited →
      (∀ h0, visited.head? = some h0 → h0 = ret) →
      (∀ w, visited.getLast? = some w → w ∈ nextsOf l off) →
      (visited = [] → off = ret) →
      ∃ sg' vis', return_walk_go l ret fuel off sg visited = .ok (sg', vis') ∧
        vis'.Nodup ∧ List.Chain' (fun a b => nextsOf l b = [a]) vis' ∧
        (∀ h0, vis'.head? = some h0 → h0 = ret) := by
  intro fuel
  induction fuel with
  | zero =>
    intro off sg visited hlen _ hnd hsub _ _ _ _
    have hle := nodup_sub_length_le hnd hsub
    rw [offsetsOf, List.length_map] at hle
    omega
  | succ fuel ih =>
    intro off sg visited hlen hoffmem hnd hsub hch hhd hlast hemp
    rw [return_walk_go_succ]
    by_cases hbrk : (if off = ret then (nextsOf l off).length ≠ 0
        else (nextsOf l off).length ≠ 1)
    · rw [if_pos hbrk]
      exact ⟨sg, visited, rfl, hnd, hch, hhd⟩
    · rw [if_neg hbrk]
      obtain ⟨ins, hins, hinsl, hinsoff⟩ := instrAt_of_mem_offsets hoffmem
      simp only [hins]
      by_cases hcall : ins.call_addresses ≠ []
      · rw [if_pos hcall]
        exact ⟨sg, visited, rfl, hnd, hch, hhd⟩
      · rw [if_neg hcall]
        by_cases hpos : 0 < ins.stack_grow
        · rw [if_pos hpos]
          exact ⟨sg, visited, rfl, hnd, hch, hhd⟩
        · rw [if_neg hpos]
          have hfresh : off ∉ visited :=
            chain_fresh (nextsOf l) visited off hnd hch
              (fun h0 hh0 => (hhd h0 hh0) ▸ hretsink) hlast
          rw [if_neg hfresh]
          have hnd' : (visited ++ [off]).Nodup := by
            rw [List.nodup_append]
            refine ⟨hnd, List.nodup_singleton off, ?_⟩
            intro a ha hb
            rw [List.mem_singleton] at hb
            exact hfresh (hb ▸ ha)
          have hsub' : ∀ o ∈ visited ++ [off], o ∈ offsetsOf l := by
            intro o ho
            rcases List.mem_append.mp ho with h1 | h2
            · exact hsub o h1
            · rw [List.mem_singleton] at h2
              exact h2 ▸ hoffmem
          have hnextlink : ∀ w, visited.getLast? = some w → nextsOf l off = [w] := by
            intro w hw
            have hwmem := hlast w hw
            by_cases hoffr : off = ret
            · rw [if_pos hoffr] at hbrk
              push_neg at hbrk
              rw [List.length_eq_zero] at hbrk
              rw [hbrk] at hwmem
              cases hwmem
            · rw [if_neg hoffr] at hbrk
              push_neg at hbrk
              exact eq_singleton_of_length_one_of_mem hbrk hwmem
          have hch' : List.Chain' (fun a b => nextsOf l b = [a]) (visited ++ [off]) := by
            rw [List.chain'_append]
            refine ⟨hch, List.chain'_singleton off, ?_⟩
            intro x hx y hy
            rw [List.head?_cons, Option.mem_some_iff] at hy
            exact hy ▸ hnextlink x (Option.mem_def.mp hx)
          have hhd' : ∀ h0, (visited ++ [off]).head? = some h0 → h0 = ret := by
            intro h0 hh0
            cases visited with
            | nil =>
              rw [List.nil_append, List.head?_cons, Option.some.injEq] at hh0
              rw [← hh0]
              exact hemp rfl
            | cons v t =>
              rw [List.cons_append, List.head?_cons, Option.some.injEq] at hh0
              exact hh0 ▸ hhd v rfl
          rcases hp : prevsOf l off with _ | ⟨p1, ps⟩
          · simp only
            exact ⟨sg + ins.stack_grow, visited ++ [off], rfl, hnd', hch', hhd'⟩
          · rcases ps with _ | ⟨p2, ps2⟩
            · simp only
              have hp1mem : p1 ∈ prevsOf l off := by
                rw [hp]
                exact List.mem_singleton.mpr rfl
              have hp1off : p1 ∈ offsetsOf l := prevsOf_sub_offsets hp1mem
              refine ih p1 (sg + ins.stack_grow) (visited ++ [off]) ?_ hp1off hnd' hsub'
                hch' hhd' ?_ ?_
              · rw [List.length_append, List.length_singleton]
                omega
              · intro w hw
                rw [List.getLast?_concat, Option.some.injEq] at hw
                refine hw ▸ mem_prevs_to_nexts hndoff ?_
                rw [hp]
                exact List.mem_singleton.mpr rfl
              · intro hcon
                exact absurd hcon (by simp)
            · simp only
              exact ⟨sg + ins.stack_grow, visited ++ [off], rfl, hnd', hch', hhd'⟩

/-- The entry walk of a well-formed function succeeds with a duplicate-free
visited list. -/
lemma entry_ok (l : List FunctionInstruction) (hwf : WFInstr l) :
    ∃ es eos, resolve_function_stack_grow_function_offsets_entry l = .ok (es, eos) ∧
      eos.Nodup := by
  obtain ⟨-, h0, hedges, -⟩ := hwf
  obtain ⟨sg', vis', h, hnd⟩ := entry_walk_go_ok l hedges (l.length + 1) 0 0 []
    (by simp) h0 List.nodup_nil (by simp) List.chain'_nil (by simp) (by simp) (fun _ => rfl)
  exact ⟨sg', vis', h, hnd⟩

/-- A returning offset is an instruction offset with no successors. -/
lemma returns_list_facts (l : List FunctionInstruction) (hnd : (offsetsOf l).Nodup) :
    ∀ r ∈ returns_list l, r ∈ offsetsOf l ∧ nextsOf l r = [] := by
  intro r hr
  rw [returns_list, List.mem_map] at hr
  obtain ⟨i, hif, rfl⟩ := hr
  rw [List.mem_filter] at hif
  obtain ⟨hil, hnone⟩ := hif
  refine ⟨List.mem_map_of_mem (fun j => j.function_offset) hil, ?_⟩
  rw [nextsOf_eq (instrAt_eq_of_mem hnd hil), Option.isNone_iff_eq_none.mp hnone]
  rfl

/-- The returning offsets are distinct. -/
lemma returns_list_nodup (l : List FunctionInstruction) (hnd : (offsetsOf l).Nodup) :
    (returns_list l).Nodup := by
  rw [returns_list]
  refine List.Nodup.sublist ?_ hnd
  rw [offsetsOf]
  exact List.Sublist.map _ (List.filter_sublist l)

/-- Each return walk of a well-formed function succeeds, with a
duplicate-free visited list forming a unique-successor chain headed by its
returning offset. -/
lemma return_walk_ok (l : List FunctionInstruction) (hwf : WFInstr l) {r : Nat}
    (hr : r ∈ returns_list l) :
    ∃ rs vis, return_walk l r = .ok (rs, vis) ∧ vis.Nodup ∧
      List.Chain' (fun a b => nextsOf l b = [a]) vis ∧
      (∀ h0, vis.head? = some h0 → h0 = r) := by
  obtain ⟨hnd, -, -, -⟩ := hwf
  obtain ⟨hrmem, hrsink⟩ := returns_list_facts l hnd r hr
  exact return_walk_go_ok l hnd r hrsink (l.length + 1) r 0 []
    (by simp) hrmem List.nodup_nil (by simp) List.chain'_nil (by simp) (by simp)
    (fun _ => rfl)

/-- `Forall₂` membership on the right. -/
lemma forall₂_mem_right {α β : Type} {R : α → β → Prop} :
    ∀ {as : List α} {bs : List β}, List.Forall₂ R as bs → ∀ b ∈ bs, ∃ a ∈ as, R a b := by
  intro as bs h
  induction h with
  | nil => simp
  | cons h1 h2 ih =>
    intro b hb
    rcases List.mem_cons.mp hb with rfl | hb'
    · exact ⟨_, List.mem_cons_self _ _, h1⟩
    · obtain ⟨a, ha, hr⟩ := ih b hb'
      exact ⟨a, List.mem_cons_of_mem _ ha, hr⟩

/-- All return walks succeed, pairing each returning offset with its
result. -/
lemma walk_returns_ok (l : List FunctionInstruction) (hwf : WFInstr l) :
    ∀ rs : List Nat, (∀ r ∈ rs, r ∈ returns_list l) →
      ∃ results, walk_returns l rs = .ok results ∧
        List.Forall₂ (fun r p => return_walk l r = .ok p) rs results := by
  intro rs
  induction rs with
  | nil => exact fun _ => ⟨[], rfl, List.Forall₂.nil⟩
  | cons r rs' ih =>
    intro hmem
    obtain ⟨sg, vis, hw, -, -, -⟩ := return_walk_ok l hwf (hmem r (List.mem_cons_self r rs'))
    obtain ⟨ps, hps, hf⟩ := ih (fun x hx => hmem x (List.mem_cons_of_mem _ hx))
    refine ⟨(sg, vis) :: ps, ?_, List.Forall₂.cons hw hf⟩
    rw [walk_returns, hw, hps]
    rfl

/-- The offsets visited by a return walk all reach the walk's returning
offset by iterating unique-successor edges. -/
lemma return_visits_reach (l : List FunctionInstruction) (hwf : WFInstr l) {r : Nat}
    {sg : Int} {vis : List Nat} (hr : r ∈ returns_list l)
    (h : return_walk l r = .ok (sg, vis)) :
    ∀ o ∈ vis, Relation.ReflTransGen (fun x y => nextsOf l x = [y]) o r := by
  obtain ⟨sg', vis', h', -, hch, hhd⟩ := return_walk_ok l hwf hr
  rw [h] at h'
  injection h' with h''
  obtain ⟨rfl, rfl⟩ := Prod.mk.injEq _ _ _ _ ▸ And.intro (congrArg Prod.fst h'')
    (congrArg Prod.snd h'')
  cases vis with
  | nil => intro o ho; cases ho
  | cons v t =>
    have hv : v = r := hhd v rfl
    intro o ho
    exact hv ▸ chain_reach (nextsOf l) (v :: t) v hch rfl o ho

/-- Visited sets of the walks of two distinct returning offsets are
disjoint: a shared offset would deterministically reach both sinks. -/
lemma return_walks_disjoint (l : List FunctionInstruction) (hwf : WFInstr l)
    {r r' : Nat} {sg sg' : Int} {vis vis' : List Nat}
    (hr : r ∈ returns_list l) (hr' : r' ∈ returns_list l) (hne : r ≠ r')
    (h : return_walk l r = .ok (sg, vis)) (h' : return_walk l r' = .ok (sg', vis')) :
    ∀ o ∈ vis, o ∉ vis' := by
  intro o ho ho'
  obtain ⟨-, hsink⟩ := returns_list_facts l hwf.1 r hr
  obtain ⟨-, hsink'⟩ := returns_list_facts l hwf.1 r' hr'
  exact hne (rtg_det_sink (nextsOf l) r r' hsink hsink' o
    (return_visits_reach l hwf hr h o ho) (return_visits_reach l hwf hr' h' o ho'))

/-- The visited lists of the return-walk results are pairwise disjoint. -/
lemma results_snd_pairwise (l : List FunctionInstruction) (hwf : WFInstr l) :
    ∀ (rs : List Nat) (results : List (Int × List Nat)),
      List.Forall₂ (fun r p => return_walk l r = .ok p) rs results →
      rs.Nodup → (∀ r ∈ rs, r ∈ returns_list l) →
      List.Pairwise (fun a b => ∀ o ∈ a, o ∉ b) (results.map Prod.snd) := by
  intro rs results hf
  induction hf with
  | nil => intro _ _; simp
  | @cons r p rs' ps' hrp htail ih =>
    intro hnd hmem
    rw [List.nodup_cons] at hnd
    rw [List.map_cons, List.pairwise_cons]
    constructor
    · intro b hb
      rw [List.mem_map] at hb
      obtain ⟨q, hq, rfl⟩ := hb
      obtain ⟨r', hr', hq'⟩ := forall₂_mem_right htail q hq
      have hner : r ≠ r' := fun he => hnd.1 (he ▸ hr')
      exact return_walks_disjoint l hwf (hmem r (List.mem_cons_self r rs'))
        (hmem r' (List.mem_cons_of_mem _ hr')) hner hrp hq'
    · exact ih hnd.2 (fun x hx => hmem x (List.mem_cons_of_mem _ hx))

/-- The combining fold succeeds on pairwise disjoint offset sets that avoid
the accumulator. -/
lemma union_disjoint_fold_ok :
    ∀ (oss : List (List Nat)) (acc : List Nat),
      (∀ os ∈ oss, ∀ o ∈ os, o ∉ acc) →
      List.Pairwise (fun a b => ∀ o ∈ a, o ∉ b) oss →
      ∃ res, union_disjoint_fold acc oss = .ok res := by
  intro oss
  induction oss with
  | nil => exact fun acc _ _ => ⟨acc, rfl⟩
  | cons os rest ih =>
    intro acc hacc hpw
    rw [List.pairwise_cons] at hpw
    rw [union_disjoint_fold]
    have hany : os.any (fun o => decide (o ∈ acc)) = false := by
      rw [List.any_eq_false]
      intro o ho
      simpa using hacc os (List.mem_cons_self os rest) o ho
    rw [hany]
    simp only [Bool.false_eq_true, if_false]
    refine ih (acc ++ os) ?_ hpw.2
    intro os' hos' o ho hoin
    rcases List.mem_append.mp hoin with h1 | h2
    · exact hacc os' (List.mem_cons_of_mem _ hos') o ho h1
    · exact hpw.1 os' hos' o h2 ho

/-- `Function.returns` holds exactly when there is a returning offset. -/
lemma returnsB_iff (l : List FunctionInstruction) :
    returnsB l = true ↔ returns_list l ≠ [] := by
  rw [returnsB, returns_list, List.any_eq_true, Ne, List.map_eq_nil,
    List.filter_eq_nil]
  constructor
  · rintro ⟨i, hil, hn⟩ hcon
    exact absurd hn (by simpa using hcon i hil)
  · intro h
    by_contra hcon
    push_neg at hcon
    exact h (fun i hil => by simpa using hcon i hil)

/-- The final coverage/alignment checks either return the entry grow or fail
with one of their two diagnostics. -/
lemma s06_finish_shape (l : List FunctionInstruction) (es : Int) (tr : List Nat) :
    s06_finish l es tr = .ok es ∨ s06_finish l es tr = .error .coverageIncomplete ∨
      s06_finish l es tr = .error .stackNotAligned := by
  rw [s06_finish]
  split
  · split
    · left; rfl
    · right; right; rfl
  · right; left; rfl

/-- Full evaluation of `resolve_function_stack_grow` on a well-formed
function: the entry walk and all return walks succeed, and the result is
determined by the return-side checks followed by `s06_finish`. -/
lemma resolve_cases_s06 (l : List FunctionInstruction) (hwf : WFInstr l) :
    ∃ es eos results,
      resolve_function_stack_grow_function_offsets_entry l = .ok (es, eos) ∧ eos.Nodup ∧
      walk_returns l (returns_list l) = .ok results ∧
      ((returns_list l = [] ∧ results = [] ∧
         resolve_function_stack_grow l = s06_finish l es eos) ∨
       (returns_list l ≠ [] ∧ results ≠ [] ∧
         ∃ g gs, (results.map Prod.fst).dedup = g :: gs ∧
         ((gs ≠ [] ∧ resolve_function_stack_grow l = .error .divergentReturnPaths) ∨
          (gs = [] ∧
            ∃ offs, union_disjoint_fold [] (results.map Prod.snd) = .ok offs ∧
              ((es ≠ -g ∧ resolve_function_stack_grow l = .error .stackNotReturnedToZero) ∨
               (es = -g ∧
                 resolve_function_stack_grow l = s06_finish l es (eos ++ offs))))))) := by
  obtain ⟨es, eos, hentry, heosnd⟩ := entry_ok l hwf
  obtain ⟨results, hwr, hf⟩ := walk_returns_ok l hwf (returns_list l) (fun r hr => hr)
  refine ⟨es, eos, results, hentry, heosnd, hwr, ?_⟩
  by_cases hret : returns_list l = []
  · left
    have hres_nil : results = [] := by
      rw [hret] at hf
      cases hf
      rfl
    subst hres_nil
    refine ⟨hret, rfl, ?_⟩
    have hb : returnsB l = false := by
      rw [← Bool.not_eq_true, returnsB_iff]
      simpa using hret
    unfold resolve_function_stack_grow resolve_function_stack_grow_function_offsets_returns
    rw [hentry, hwr]
    simp only [Except.bind, hb, Option.isNone_none, Bool.not_false, if_pos, reduceIte]
  · right
    have hres_ne : results ≠ [] := by
      intro hcon
      have hlen := List.Forall₂.length_eq hf
      rw [hcon, List.length_nil, List.length_eq_zero] at hlen
      exact hret hlen
    have hbt : returnsB l = true := (returnsB_iff l).mpr hret
    obtain ⟨p0, hp0⟩ := List.exists_mem_of_ne_nil results hres_ne
    have hgmem : p0.1 ∈ (results.map Prod.fst).dedup := by
      rw [List.mem_dedup]
      exact List.mem_map_of_mem Prod.fst hp0
    rcases hd : (results.map Prod.fst).dedup with _ | ⟨g, gs⟩
    · rw [hd] at hgmem
      cases hgmem
    · refine ⟨hret, hres_ne, g, gs, rfl, ?_⟩
      rcases gs with _ | ⟨g2, t⟩
      · right
        obtain ⟨offs, hfold⟩ := union_disjoint_fold_ok (results.map Prod.snd) []
          (by intro os hos o ho hcon; cases hcon)
          (results_snd_pairwise l hwf (returns_list l) results hf
            (returns_list_nodup l hwf.1) (fun r hr => hr))
        refine ⟨rfl, offs, hfold, ?_⟩
        unfold resolve_function_stack_grow resolve_function_stack_grow_function_offsets_returns
        rw [hentry, hwr]
        simp only [Except.bind, hres_ne, if_neg, hd, hfold, hbt, Option.isNone_some,
          Bool.not_true, reduceIte]
        by_cases hz : es = -g
        · right
          refine ⟨hz, ?_⟩
          rw [if_neg (by simpa using hz)]
        · left
          refine ⟨hz, ?_⟩
          rw [if_pos (by simpa using hz)]
      · left
        refine ⟨by simp, ?_⟩
        unfold resolve_function_stack_grow resolve_function_stack_grow_function_offsets_returns
        rw [hentry, hwr]
        simp only [Except.bind, hres_ne, if_neg, hd, reduceIte]

/-- C3: the per-function stack analyzer returns the entry-walk sum as the
function's stack_grow (any successful result equals the entry sum); for a
function with at least one returning instruction it rejects with the
differing-sizes diagnostic when two return walks' sums differ, rejects with
the stack-not-returned-to-zero diagnostic when the entry sum plus the common
return sum is non-zero, and otherwise proceeds to the final checks with the
combined traversal; for a function with no returning instruction it skips
the return checks and returns the entry sum subject only to the coverage and
alignment checks. -/
theorem resolve_function_stack_grow_spec :
    ∀ l : List FunctionInstruction, WFInstr l →
      ∃ es eos results,
        resolve_function_stack_grow_function_offsets_entry l = .ok (es, eos) ∧
        walk_returns l (returns_list l) = .ok results ∧
        (∀ v, resolve_function_stack_grow l = .ok v → v = es) ∧
        (returns_list l = [] →
          resolve_function_stack_grow l = s06_finish l es eos ∧
          (resolve_function_stack_grow l = .ok es ∨
           resolve_function_stack_grow l = .error .coverageIncomplete ∨
           resolve_function_stack_grow l = .error .stackNotAligned)) ∧
        (returns_list l ≠ [] →
          ((∃ p ∈ results, ∃ q ∈ results, p.1 ≠ q.1) →
             resolve_function_stack_grow l = .error .divergentReturnPaths) ∧
          (∀ g, g ∈ results.map Prod.fst →
             (∀ g', g' ∈ results.map Prod.fst → g' = g) →
             (es ≠ -g → resolve_function_stack_grow l = .error .stackNotReturnedToZero) ∧
             (es = -g →
               ∃ tr, resolve_function_stack_grow l = s06_finish l es (eos ++ tr)))) := by
  intro l hwf
  obtain ⟨es, eos, results, hentry, -, hwr, hcases⟩ := resolve_cases_s06 l hwf
  refine ⟨es, eos, results, hentry, hwr, ?_, ?_, ?_⟩
  · intro v hv
    rcases hcases with ⟨-, -, hr⟩ | ⟨-, -, g, gs, -, ⟨-, hr⟩ | ⟨-, offs, -, ⟨-, hr⟩ | ⟨-, hr⟩⟩⟩
    · rcases s06_finish_shape l es eos with hs | hs | hs <;> rw [hr, hs] at hv
      · injection hv with hv
        exact hv.symm
      · cases hv
      · cases hv
    · rw [hr] at hv
      cases hv
    · rw [hr] at hv
      cases hv
    · rcases s06_finish_shape l es (eos ++ offs) with hs | hs | hs <;> rw [hr, hs] at hv
      · injection hv with hv
        exact hv.symm
      · cases hv
      · cases hv
  · intro hret
    rcases hcases with ⟨-, -, hr⟩ | ⟨hne, -⟩
    · refine ⟨hr, ?_⟩
      rcases s06_finish_shape l es eos with hs | hs | hs
      · exact Or.inl (hr.trans hs)
      · exact Or.inr (Or.inl (hr.trans hs))
      · exact Or.inr (Or.inr (hr.trans hs))
    · exact absurd hret hne
  · intro hret
    rcases hcases with ⟨hnil, -, -⟩ | ⟨-, hres_ne, g0, gs, hd, hrest⟩
    · exact absurd hnil hret
    constructor
    · rintro ⟨p, hp, q, hq, hpq⟩
      rcases hrest with ⟨-, hr⟩ | ⟨hgs_nil, -⟩
      · exact hr
      · exfalso
        have hpd : p.1 ∈ (results.map Prod.fst).dedup := by
          rw [List.mem_dedup]
          exact List.mem_map_of_mem Prod.fst hp
        have hqd : q.1 ∈ (results.map Prod.fst).dedup := by
          rw [List.mem_dedup]
          exact List.mem_map_of_mem Prod.fst hq
        rw [hd, hgs_nil, List.mem_singleton] at hpd hqd
        exact hpq (hpd.trans hqd.symm)
    · intro g hg hall
      have hg0mem : g0 ∈ results.map Prod.fst := by
        have : g0 ∈ (results.map Prod.fst).dedup := by
          rw [hd]
          exact List.mem_cons_self g0 gs
        exact List.mem_dedup.mp this
      have hgg0 : g0 = g := hall g0 hg0mem
      rcases hrest with ⟨hgs_ne, hr⟩ | ⟨hgs_nil, offs, hfold, hrest2⟩
      · exfalso
        rcases gs with _ | ⟨g2, t⟩
        · exact hgs_ne rfl
        · have hg2mem : g2 ∈ results.map Prod.fst := by
            have : g2 ∈ (results.map Prod.fst).dedup := by
              rw [hd]
              exact List.mem_cons_of_mem _ (List.mem_cons_self g2 t)
            exact List.mem_dedup.mp this
          have hnd := List.nodup_dedup (results.map Prod.fst)
          rw [hd, List.nodup_cons] at hnd
          exact hnd.1 (by
            rw [hgg0, hall g2 hg2mem]
            exact List.mem_cons_self g t)
      · subst hgg0
        constructor
        · intro hnz
          rcases hrest2 with ⟨-, hr⟩ | ⟨heq, -⟩
          · exact hr
          · exact absurd heq hnz
        · intro heq
          rcases hrest2 with ⟨hne2, -⟩ | ⟨-, hr⟩
          · exact absurd heq hne2
          · exact ⟨offs, hr⟩

/-- C10: the walk assertions never fire on a well-formed function — the
entry walk and every return walk succeed with duplicate-free visited lists
(no offset is visited twice), the visited lists of distinct return walks are
pairwise disjoint, and `resolve_function_stack_grow` never reports a fired
`assert` (revisit, overlap, or returns-mismatch). -/
theorem s06_walk_asserts_never_fire :
    ∀ l : List FunctionInstruction, WFInstr l →
      (∃ p, resolve_function_stack_grow_function_offsets_entry l = .ok p ∧ p.2.Nodup) ∧
      (∀ r ∈ returns_list l, ∃ p, return_walk l r = .ok p ∧ p.2.Nodup) ∧
      (∀ r r', r ∈ returns_list l → r' ∈ returns_list l → r ≠ r' →
        ∀ p q, return_walk l r = .ok p → return_walk l r' = .ok q →
          ∀ o ∈ p.2, o ∉ q.2) ∧
      resolve_function_stack_grow l ≠ .error .walkAssertRevisited ∧
      resolve_function_stack_grow l ≠ .error .assertReturnWalksOverlap ∧
      resolve_function_stack_grow l ≠ .error .assertReturnsMismatch := by
  intro l hwf
  have hshape := resolve_cases_s06 l hwf
  have hval : ∀ e : S06Error,
      e ≠ .divergentReturnPaths → e ≠ .stackNotReturnedToZero →
      e ≠ .coverageIncomplete → e ≠ .stackNotAligned →
      resolve_function_stack_grow l ≠ .error e := by
    intro e he1 he2 he3 he4 hcon
    obtain ⟨es, eos, results, -, -, -, hcases⟩ := hshape
    rcases hcases with ⟨-, -, hr⟩ | ⟨-, -, g, gs, -, ⟨-, hr⟩ | ⟨-, offs, -, ⟨-, hr⟩ | ⟨-, hr⟩⟩⟩
    · rcases s06_finish_shape l es eos with hs | hs | hs <;> rw [hr, hs] at hcon
      · cases hcon
      · injection hcon with hcon
        exact he3 hcon.symm
      · injection hcon with hcon
        exact he4 hcon.symm
    · rw [hr] at hcon
      injection hcon with hcon
      exact he1 hcon.symm
    · rw [hr] at hcon
      injection hcon with hcon
      exact he2 hcon.symm
    · rcases s06_finish_shape l es (eos ++ offs) with hs | hs | hs <;> rw [hr, hs] at hcon
      · cases hcon
      · injection hcon with hcon
        exact he3 hcon.symm
      · injection hcon with hcon
        exact he4 hcon.symm
  refine ⟨?_, ?_, ?_, ?_, ?_, ?_⟩
  · obtain ⟨es, eos, h, hnd⟩ := entry_ok l hwf
    exact ⟨(es, eos), h, hnd⟩
  · intro r hr
    obtain ⟨rs, vis, h, hnd, -, -⟩ := return_walk_ok l hwf hr
    exact ⟨(rs, vis), h, hnd⟩
  · intro r r' hr hr' hne p q hp hq
    exact return_walks_disjoint l hwf hr hr' hne hp hq
  · exact hval _ (by intro h; cases h) (by intro h; cases h) (by intro h; cases h)
      (by intro h; cases h)
  · exact hval _ (by intro h; cases h) (by intro h; cases h) (by intro h; cases h)
      (by intro h; cases h)
  · exact hval _ (by intro h; cases h) (by intro h; cases h) (by intro h; cases h)
      (by intro h; cases h)

/-- Witness for C3: the example function is well-formed and the analyzer's
behaviour on it follows the claim. -/
theorem resolve_function_stack_grow_spec_witness :
    WFInstr s06_example ∧
    (∃ es eos results,
      resolve_function_stack_grow_function_offsets_entry s06_example = .ok (es, eos) ∧
      walk_returns s06_example (returns_list s06_example) = .ok results ∧
      (∀ v, resolve_function_stack_grow s06_example = .ok v → v = es) ∧
      (returns_list s06_example = [] →
        resolve_function_stack_grow s06_example = s06_finish s06_example es eos ∧
        (resolve_function_stack_grow s06_example = .ok es ∨
         resolve_function_stack_grow s06_example = .error .coverageIncomplete ∨
         resolve_function_stack_grow s06_example = .error .stackNotAligned)) ∧
      (returns_list s06_example ≠ [] →
        ((∃ p ∈ results, ∃ q ∈ results, p.1 ≠ q.1) →
           resolve_function_stack_grow s06_example = .error .divergentReturnPaths) ∧
        (∀ g, g ∈ results.map Prod.fst →
           (∀ g', g' ∈ results.map Prod.fst → g' = g) →
           (es ≠ -g →
             resolve_function_stack_grow s06_example = .error .stackNotReturnedToZero) ∧
           (es = -g →
             ∃ tr, resolve_function_stack_grow s06_example =
               s06_finish s06_example es (eos ++ tr))))) :=
  ⟨by unfold WFInstr; decide,
   resolve_function_stack_grow_spec s06_example (by unfold WFInstr; decide)⟩

/-- Witness for C10: the example function is well-formed and none of the
walk assertions fire on it. -/
theorem s06_walk_asserts_never_fire_witness :
    WFInstr s06_example ∧
    ((∃ p, resolve_function_stack_grow_function_offsets_entry s06_example = .ok p ∧
        p.2.Nodup) ∧
     (∀ r ∈ returns_list s06_example, ∃ p, return_walk s06_example r = .ok p ∧
        p.2.Nodup) ∧
     (∀ r r', r ∈ returns_list s06_example → r' ∈ returns_list s06_example → r ≠ r' →
       ∀ p q, return_walk s06_example r = .ok p → return_walk s06_example r' = .ok q →
         ∀ o ∈ p.2, o ∉ q.2) ∧
     resolve_function_stack_grow s06_example ≠ .error .walkAssertRevisited ∧
     resolve_function_stack_grow s06_example ≠ .error .assertReturnWalksOverlap ∧
     resolve_function_stack_grow s06_example ≠ .error .assertReturnsMismatch) :=
  ⟨by unfold WFInstr; decide,
   s06_walk_asserts_never_fire s06_example (by unfold WFInstr; decide)⟩

end StackDepthAnalyzer
